import Mathlib

/-!
A shallow embedding of `src/board.rs` from the minesweeper-backend repository
(the `Board`, `BoardCell`, `BoardCellState` and `GameState` types and the
operations `BoardCell::{from_char, new, state, value, click, flag}`,
`Board::{new, start, flag, click, update}`), together with theorems settling
the specification claims about them.

Modelling conventions:
- `BoardCell.cell` is the packed `u8`; it is a `Nat`, with `% 256` written at
  the single place where the source increments it (`Board::start`'s adjacency
  bump).  All other writes stay below 256 syntactically.  `flagged_cells` is
  the `i16` counter: it is stored as an `Int` and the single place that writes
  it (`Board::flag`'s `+=`) applies the two's-complement wrap into
  [-32768, 32767] (`wrap16`), the release-mode semantics of the `i16`
  addition; a debug build would panic at the same boundary.
- The process-level random source (`thread_rng` driving `choose_multiple`) is
  modelled as an explicit `sample : List Nat` parameter: the list of distinct
  indices drawn from `0..(rows*cols - exclusion_size)`.  `SampleOK` states
  exactly the properties `choose_multiple` guarantees for its output.
- The wall-clock timer (`Instant`, `Duration`) is outside the embedding: no
  claim is about real time, and `update`'s `display_time` refresh touches no
  grid state.  The `Solver` collaborator is likewise omitted: it is built from
  an immutable borrow of the grid and never mutates the board (spec §5), and
  its module is not part of the board source.
- Rust's BFS `while let` loop is given explicit fuel; the source loop performs
  at most one pop per queue element and every push is guarded by a fresh
  insertion into the visited set of in-bounds positions, so
  `rows*cols + 10` (grid positions plus the at most 9 seeds, plus one) bounds
  the number of iterations.  Running out of fuel yields `none`, which is
  unreachable for the fuel supplied; fallible results are `Option`s.
- Out-of-range indexing panics in the source; reachability therefore only
  admits in-bounds coordinates, and the list accessors below use defaults
  that are never exercised by reachable operations.
-/

set_option maxRecDepth 20000

namespace Minesweeper

/-- The `GameState` enum of the source. -/
inductive GameState where
  | InProgress
  | Won
  | Lost
deriving DecidableEq, Repr

/-- The `BoardCellState` enum; discriminants 0..4, `Other` is every tag ≥ 5. -/
inductive BoardCellState where
  | Discovered
  | Blank
  | Flagged
  | Question
  | Exploded
  | Other
deriving DecidableEq, Repr

/-- The `as u8` cast of `BoardCellState` (`Other`, without an explicit
discriminant, is 5 in Rust). -/
def BoardCellState.code : BoardCellState → Nat
  | .Discovered => 0
  | .Blank => 1
  | .Flagged => 2
  | .Question => 3
  | .Exploded => 4
  | .Other => 5

/-- `BoardCell`: the packed single-byte cell, high nibble = state tag,
low nibble = value. -/
structure BoardCell where
  cell : Nat
deriving DecidableEq, Repr

/-- `BoardCell::state`: `match self.cell >> 4`. -/
def BoardCell.state (c : BoardCell) : BoardCellState :=
  match c.cell / 16 with
  | 0 => .Discovered
  | 1 => .Blank
  | 2 => .Flagged
  | 3 => .Question
  | 4 => .Exploded
  | _ => .Other

/-- `BoardCell::value`: `self.cell & ((1 << 4) - 1)`. -/
def BoardCell.value (c : BoardCell) : Nat :=
  c.cell % 16

/-- `BoardCell::from_raw_parts`: `((state as u8) << 4) + value`. -/
def BoardCell.from_raw_parts (value : Nat) (state : BoardCellState) : BoardCell :=
  ⟨state.code * 16 + value⟩

/-- `BoardCell::new`: `1 << 4` (a Blank cell of value 0). -/
def BoardCell.new : BoardCell := ⟨16⟩

/-- Rust `char::to_digit(10)`: only the ASCII digits `'0'..='9'` convert;
every other character (including non-ASCII Unicode digits) yields `None`. -/
def rustToDigit10 (c : Char) : Option Nat :=
  if '0' ≤ c ∧ c ≤ '9' then some (c.toNat - 48) else none

/-- Rust `char::is_numeric` holds on the Unicode `Nd`/`Nl`/`No` categories.
Beyond the ASCII digits we model only the code points this development
mentions: U+0661 ARABIC-INDIC DIGIT ONE, category `Nd`, on which Rust's
`is_numeric` returns `true` while `to_digit(10)` returns `None`. -/
def rustIsNumeric (c : Char) : Bool :=
  ('0' ≤ c && c ≤ '9') || c.toNat = 0x661

/-- `BoardCell::from_char`.  The source calls
`c.to_digit(10).unwrap()` under an `is_numeric` guard; the `unwrap` panic is
modelled by `none`. -/
def BoardCell.from_char (c : Char) : Option BoardCell :=
  if rustIsNumeric c then
    (rustToDigit10 c).map (fun d => BoardCell.from_raw_parts d .Discovered)
  else if c = 'm' then some (BoardCell.from_raw_parts 15 .Blank)
  else if c = '?' then some (BoardCell.from_raw_parts 0 .Blank)
  else some (BoardCell.from_raw_parts 0 .Other)

/-- `BoardCell::click`: a Blank cell is rewritten to `self.value()`
(i.e. Discovered with the same value); the returned Bool is the
cascade-continue signal, true exactly when a Blank cell of value 0 was hit. -/
def BoardCell.click (c : BoardCell) : BoardCell × Bool :=
  if c.state = BoardCellState.Blank then
    (⟨c.value⟩, c.value = 0)
  else (c, false)

/-- `BoardCell::flag`: a non-Discovered cell gets tag
`(state as u8) % 3 + 1`; the returned delta is decided by the NEW state:
Question → −1, Flagged → +1, anything else → 0. -/
def BoardCell.flag (c : BoardCell) : BoardCell × Int :=
  let c' := if c.state ≠ BoardCellState.Discovered then
      (⟨c.value + (c.state.code % 3 + 1) * 16⟩ : BoardCell)
    else c
  (c', match c'.state with
       | BoardCellState.Question => -1
       | BoardCellState.Flagged => 1
       | _ => 0)

/-! ### Cell-level claims: C5, C7, C8 -/

/-- C5, counterexample.  The claim states the flag-cycle delta is 0 on the
Flagged→Question transition and −1 on Question→Blank.  On the Flagged cell
`⟨32⟩` (tag 2, value 0) the source advances to Question `⟨48⟩` and returns −1
(the delta is decided by the NEW state), contradicting the claimed 0. -/
theorem flag_delta_cx :
    BoardCell.flag ⟨32⟩ = (⟨48⟩, -1) ∧
    (⟨32⟩ : BoardCell).state = BoardCellState.Flagged ∧
    (⟨48⟩ : BoardCell).state = BoardCellState.Question ∧
    ((-1 : Int) ≠ 0) := by decide

/-- C5, amended.  `BoardCell.flag` is a no-op returning 0 on Discovered cells
and otherwise advances Blank→Flagged→Question→Blank; the returned delta is
+1 exactly when the transition enters Flagged (Blank→Flagged), −1 exactly
when it enters Question (Flagged→Question), and 0 otherwise (in particular 0
on Question→Blank).  Stated for every cell in the Discovered/Blank/Flagged/
Question tag range (`cell < 64`). -/
theorem flag_delta_spec (c : BoardCell) (h : c.cell < 64) :
    (c.state = BoardCellState.Discovered → c.flag = (c, 0)) ∧
    (c.state = BoardCellState.Blank →
      c.flag = (⟨c.value + 32⟩, 1) ∧
      (⟨c.value + 32⟩ : BoardCell).state = BoardCellState.Flagged) ∧
    (c.state = BoardCellState.Flagged →
      c.flag = (⟨c.value + 48⟩, -1) ∧
      (⟨c.value + 48⟩ : BoardCell).state = BoardCellState.Question) ∧
    (c.state = BoardCellState.Question →
      c.flag = (⟨c.value + 16⟩, 0) ∧
      (⟨c.value + 16⟩ : BoardCell).state = BoardCellState.Blank) := by
  have key : ∀ n, n < 64 →
      ((⟨n⟩ : BoardCell).state = BoardCellState.Discovered →
        (⟨n⟩ : BoardCell).flag = (⟨n⟩, 0)) ∧
      ((⟨n⟩ : BoardCell).state = BoardCellState.Blank →
        (⟨n⟩ : BoardCell).flag = (⟨(⟨n⟩ : BoardCell).value + 32⟩, 1) ∧
        (⟨(⟨n⟩ : BoardCell).value + 32⟩ : BoardCell).state = BoardCellState.Flagged) ∧
      ((⟨n⟩ : BoardCell).state = BoardCellState.Flagged →
        (⟨n⟩ : BoardCell).flag = (⟨(⟨n⟩ : BoardCell).value + 48⟩, -1) ∧
        (⟨(⟨n⟩ : BoardCell).value + 48⟩ : BoardCell).state = BoardCellState.Question) ∧
      ((⟨n⟩ : BoardCell).state = BoardCellState.Question →
        (⟨n⟩ : BoardCell).flag = (⟨(⟨n⟩ : BoardCell).value + 16⟩, 0) ∧
        (⟨(⟨n⟩ : BoardCell).value + 16⟩ : BoardCell).state = BoardCellState.Blank) := by
    decide
  exact key c.cell h

/-- C5 witness: the amended description evaluated on the Blank cell `⟨17⟩`
(tag Blank, value 1). -/
theorem flag_delta_spec_witness :
    (⟨17⟩ : BoardCell).flag = (⟨(⟨17⟩ : BoardCell).value + 32⟩, 1) ∧
    (⟨(⟨17⟩ : BoardCell).value + 32⟩ : BoardCell).state = BoardCellState.Flagged :=
  (flag_delta_spec ⟨17⟩ (by decide)).2.1 (by decide)

/-- C7.  `char::is_numeric` is true on U+0661 (ARABIC-INDIC DIGIT ONE) but
`to_digit(10)` only converts ASCII digits, so `from_char '١'` hits
`.unwrap()` on `None` and panics (modelled as `none`) — the map is not total,
contradicting the claim.  The digit, `'m'` and `'?'` rows behave as claimed. -/
theorem from_char_numeric_none :
    rustIsNumeric '١' = true ∧
    BoardCell.from_char '١' = none ∧
    BoardCell.from_char '3' = some ⟨3⟩ ∧
    (⟨3⟩ : BoardCell).state = BoardCellState.Discovered ∧
    BoardCell.from_char 'm' = some ⟨31⟩ ∧
    (⟨31⟩ : BoardCell).value = 15 ∧
    BoardCell.from_char '?' = some ⟨16⟩ := by decide

/-- C8, counterexample.  The claim says three applications of the flag cycle
return every non-Discovered cell to the Blank tag.  Starting from the Flagged
cell `⟨32⟩`, three applications cycle Flagged→Question→Blank→Flagged and end
on Flagged, not Blank. -/
theorem triple_flag_cx :
    (((((⟨32⟩ : BoardCell).flag).1.flag).1.flag).1 = (⟨32⟩ : BoardCell)) ∧
    ((((((⟨32⟩ : BoardCell).flag).1.flag).1.flag).1.state = BoardCellState.Flagged) ∧
      BoardCellState.Flagged ≠ BoardCellState.Blank) := by decide

/-- C8, amended.  For every non-Discovered cell (as a `u8`, `cell < 256`) the
three deltas of a full flag cycle sum to 0 — so the flagged-cell counter
returns to its pre-cycle value — and a cell whose tag lies in the
Blank/Flagged/Question cycle returns to exactly its original packed byte
(in particular a Blank cell returns to Blank). -/
theorem triple_flag_spec (c : BoardCell) (h256 : c.cell < 256)
    (h : c.state ≠ BoardCellState.Discovered) :
    (c.flag.2 + c.flag.1.flag.2 + c.flag.1.flag.1.flag.2 = 0) ∧
    (c.state = BoardCellState.Blank ∨ c.state = BoardCellState.Flagged ∨
        c.state = BoardCellState.Question →
      c.flag.1.flag.1.flag.1 = c) := by
  have key : ∀ n, n < 256 → (⟨n⟩ : BoardCell).state ≠ BoardCellState.Discovered →
      ((⟨n⟩ : BoardCell).flag.2 + (⟨n⟩ : BoardCell).flag.1.flag.2 +
        (⟨n⟩ : BoardCell).flag.1.flag.1.flag.2 = 0) ∧
      ((⟨n⟩ : BoardCell).state = BoardCellState.Blank ∨
          (⟨n⟩ : BoardCell).state = BoardCellState.Flagged ∨
          (⟨n⟩ : BoardCell).state = BoardCellState.Question →
        (⟨n⟩ : BoardCell).flag.1.flag.1.flag.1 = (⟨n⟩ : BoardCell)) := by
    decide
  exact key c.cell h256 h

/-- C8 witness: the amended statement evaluated on the Blank cell `⟨16⟩`. -/
theorem triple_flag_spec_witness :
    ((⟨16⟩ : BoardCell).flag.2 + (⟨16⟩ : BoardCell).flag.1.flag.2 +
      (⟨16⟩ : BoardCell).flag.1.flag.1.flag.2 = 0) ∧
    (⟨16⟩ : BoardCell).flag.1.flag.1.flag.1 = (⟨16⟩ : BoardCell) :=
  ⟨(triple_flag_spec ⟨16⟩ (by decide) (by decide)).1,
    (triple_flag_spec ⟨16⟩ (by decide) (by decide)).2 (by decide)⟩

/-! ### The Board -/

/-- The `Board` struct.  `start` (the activation flag) is renamed `started`
because Lean cannot have both the field and the method `Board.start`; the
timer fields and the `Solver` handle are omitted (see the header comment).
`flagged_cells` is `i16` in the source: it is held as an `Int` that every
write wraps into [-32768, 32767] via `wrap16`. -/
structure Board where
  board : List (List BoardCell)
  rows : Nat
  cols : Nat
  mines : Nat
  game_state : GameState
  started : Bool
  clicked_cells : Nat
  flagged_cells : Int
deriving DecidableEq, Repr

/-- Read `self.board[x][y]`; out-of-range access panics in the source and is
never exercised by the reachable operations. -/
def cellAt (g : List (List BoardCell)) (x y : Nat) : BoardCell :=
  (g.getD x []).getD y ⟨0⟩

/-- Write `self.board[x][y] = c`; out of range, `List.set` is a no-op where
the source would panic (again never exercised by reachable operations). -/
def setCell (g : List (List BoardCell)) (x y : Nat) (c : BoardCell) :
    List (List BoardCell) :=
  g.set x ((g.getD x []).set y c)

/-- The nine `iproduct!(-1..=1, -1..=1)` offsets, in iteration order. -/
def nbrOffsets : List (Int × Int) :=
  [(-1, -1), (-1, 0), (-1, 1), (0, -1), (0, 0), (0, 1), (1, -1), (1, 0), (1, 1)]

/-- The source's recurring bounds test `0 <= x1 && x1 < rows && 0 <= y1 && y1 < cols`. -/
def inb (rows cols : Nat) (x1 y1 : Int) : Prop :=
  0 ≤ x1 ∧ x1 < (rows : Int) ∧ 0 ≤ y1 ∧ y1 < (cols : Int)

instance (rows cols : Nat) (x1 y1 : Int) : Decidable (inb rows cols x1 y1) := by
  unfold inb; infer_instance

/-- `Board::new`: an all-Blank rows × cols grid, nothing placed yet. -/
def Board.new (rows cols mines : Nat) : Board :=
  { board := (List.range rows).map (fun _ => (List.range cols).map (fun _ => BoardCell.new))
    rows := rows
    cols := cols
    mines := mines
    game_state := GameState.InProgress
    started := false
    clicked_cells := 0
    flagged_cells := 0 }

/-! #### `Board::start`: the mine-field generator -/

/-- Insertion of one element into an ascending list (helper for
`sort_unstable`). -/
def insertAsc (a : Nat) : List Nat → List Nat
  | [] => [a]
  | b :: l => if a ≤ b then a :: b :: l else b :: insertAsc a l

/-- `sort_unstable` on a list of indices (insertion sort; stability is
irrelevant on `usize`). -/
def sortAsc : List Nat → List Nat
  | [] => []
  | a :: l => insertAsc a (sortAsc l)

/-- The row-major linear indices of the in-bounds 3×3 neighborhood of (x, y):
the `places` vector of `Board::start` before compression. -/
def exclusionIdx (rows cols x y : Nat) : List Nat :=
  nbrOffsets.filterMap (fun d =>
    let x1 := (x : Int) + d.1
    let y1 := (y : Int) + d.2
    if inb rows cols x1 y1 then some (x1.toNat * cols + y1.toNat) else none)

/-- The run-compression loop of `Board::start`: from the sorted exclusion
indices build `[(0,0)] ++ maximal runs (start, len) ++ [(n, 0)]`, exactly as
the source's fold with state `(start, len, next)` initialised to `(n, 0, n)`. -/
def buildRuns (places : List Nat) (n : Nat) : List (Nat × Nat) :=
  let step : (List (Nat × Nat) × Nat × Nat × Nat) → Nat →
      (List (Nat × Nat) × Nat × Nat × Nat) := fun acc e =>
    let temp := acc.1
    let s := acc.2.1
    let l := acc.2.2.1
    let nx := acc.2.2.2
    if e = nx then (temp, s, l + 1, nx + 1)
    else ((if s ≠ n then temp ++ [(s, l)] else temp), e, 1, e + 1)
  let fin := places.foldl step ([(0, 0)], n, 0, n)
  fin.1 ++ [(fin.2.1, fin.2.2.1)] ++ [(n, 0)]

/-- Total length of the exclusion runs (`places.iter().fold(0, |acc,(_,x)| acc+x)`). -/
def sumLens (runs : List (Nat × Nat)) : Nat :=
  (runs.map (fun r => r.2)).sum

/-- The inner `while places[i].0 <= a + delta` loop of the index remap:
consume runs whose start is ≤ a + delta, accumulating their lengths into
delta.  Returns the new delta and the unconsumed runs. -/
def skipRuns : List (Nat × Nat) → Nat → Nat → Nat × List (Nat × Nat)
  | [], delta, _ => (delta, [])
  | (s, l) :: rest, delta, a =>
      if s ≤ a + delta then skipRuns rest (delta + l) a else (delta, (s, l) :: rest)

/-- The "skip-the-gaps" remap of the sorted sampled indices.  Faithful to the
source, the computed delta is multiplied by `flag as usize`: it is only
applied when `flag` is true (the click-activation path). -/
def remapGo (runs : List (Nat × Nat)) (delta : Nat) (pos : List Nat)
    (flag : Bool) : List Nat :=
  match pos with
  | [] => []
  | a :: rest =>
      let dr := skipRuns runs delta a
      (a + dr.1 * (if flag then 1 else 0)) :: remapGo dr.2 dr.1 rest flag

/-- One neighbor-increment step of mine placement: an in-bounds neighbor
whose value is not 15 has its byte incremented (`% 256` mirrors the `u8`
add). -/
def bumpStep (rows cols x y : Nat) (g : List (List BoardCell))
    (d : Int × Int) : List (List BoardCell) :=
  let x1 := (x : Int) + d.1
  let y1 := (y : Int) + d.2
  if inb rows cols x1 y1 then
    if (cellAt g x1.toNat y1.toNat).value ≠ 15 then
      setCell g x1.toNat y1.toNat ⟨((cellAt g x1.toNat y1.toNat).cell + 1) % 256⟩
    else g
  else g

/-- Place one mine at linear index `p`: set the cell's value to the sentinel
15 preserving its tag, then increment every in-bounds non-mine neighbor. -/
def placeMine (b : Board) (p : Nat) : Board :=
  let x := p / b.cols
  let y := p % b.cols
  let c := cellAt b.board x y
  let g1 := setCell b.board x y ⟨15 + c.state.code * 16⟩
  { b with board := nbrOffsets.foldl (bumpStep b.rows b.cols x y) g1 }

/-- The size of the index space the source samples from:
`rows*cols - exclusion_size`. -/
def Board.sampleSpace (b : Board) (x y : Nat) : Nat :=
  b.rows * b.cols - sumLens (buildRuns (sortAsc (exclusionIdx b.rows b.cols x y)) (b.rows * b.cols))

/-- What `choose_multiple(&mut rng, mines)` guarantees about its output: the
drawn indices are distinct elements of `0..sampleSpace`, and exactly
`min mines sampleSpace` of them are drawn.  A board that is already started
ignores the sample entirely. -/
def SampleOK (b : Board) (sample : List Nat) (x y : Nat) : Prop :=
  b.started = true ∨
    (sample.Nodup ∧ (∀ a ∈ sample, a < b.sampleSpace x y) ∧
      sample.length = min b.mines (b.sampleSpace x y))

instance (b : Board) (sample : List Nat) (x y : Nat) :
    Decidable (SampleOK b sample x y) := by
  unfold SampleOK; infer_instance

/-- `Board::start`: compute the exclusion runs, remap the sorted sample, and
place the mines.  The `Solver` construction and the timer capture are
omitted (they do not touch the grid or counters). -/
def Board.start (b : Board) (sample : List Nat) (x y : Nat) (flag : Bool) : Board :=
  let n := b.rows * b.cols
  let places := buildRuns (sortAsc (exclusionIdx b.rows b.cols x y)) n
  let pos := remapGo places 0 (sortAsc sample) flag
  let b1 := pos.foldl placeMine b
  { b1 with started := true }

/-! #### The reveal cascade -/

/-- Count the Flagged in-bounds neighbors of (x, y) (the chord-click guard). -/
def countFlaggedNbrs (g : List (List BoardCell)) (rows cols x y : Nat) : Nat :=
  nbrOffsets.foldl (fun n d =>
    let x1 := (x : Int) + d.1
    let y1 := (y : Int) + d.2
    if inb rows cols x1 y1 then
      if (cellAt g x1.toNat y1.toNat).state = BoardCellState.Flagged then n + 1 else n
    else n) 0

/-- One seed-collection step for the chord click: an in-bounds Blank
neighbor is appended. -/
def seedStep (g : List (List BoardCell)) (rows cols x y : Nat)
    (acc : List (Nat × Nat)) (d : Int × Int) : List (Nat × Nat) :=
  let x1 := (x : Int) + d.1
  let y1 := (y : Int) + d.2
  if inb rows cols x1 y1 then
    if (cellAt g x1.toNat y1.toNat).state = BoardCellState.Blank then
      acc ++ [(x1.toNat, y1.toNat)]
    else acc
  else acc

/-- The Blank in-bounds neighbors of (x, y), in offset order (the chord-click
seeds; the source pushes each into both the queue and the visited set). -/
def seedBlanks (g : List (List BoardCell)) (rows cols x y : Nat) : List (Nat × Nat) :=
  nbrOffsets.foldl (seedStep g rows cols x y) []

/-- One neighbor-push step of the cascade: push every in-bounds Blank
neighbor not yet in the visited set onto the queue (and into the set). -/
def pushStep (g : List (List BoardCell)) (rows cols x y : Nat)
    (acc : List (Nat × Nat) × List (Nat × Nat)) (d : Int × Int) :
    List (Nat × Nat) × List (Nat × Nat) :=
  let x1 := (x : Int) + d.1
  let y1 := (y : Int) + d.2
  if inb rows cols x1 y1 then
    if (cellAt g x1.toNat y1.toNat).state = BoardCellState.Blank ∧
        (x1.toNat, y1.toNat) ∉ acc.2 then
      (acc.1 ++ [(x1.toNat, y1.toNat)], acc.2 ++ [(x1.toNat, y1.toNat)])
    else acc
  else acc

/-- The breadth-first cascade of `Board::click`.  Returns the resulting board
and `true` when the loop ended by popping a mine (the source's early
`return`, which skips the win check), `false` when the queue drained.
`none` models fuel exhaustion and is unreachable for the fuel `click`
supplies. -/
def bfsLoop : Nat → Board → List (Nat × Nat) → List (Nat × Nat) →
    Option (Board × Bool)
  | 0, _, _, _ => none
  | _ + 1, b, [], _ => some (b, false)
  | fuel + 1, b, (x, y) :: q, set =>
    if (cellAt b.board x y).value = 15 then
      some ({ b with game_state := GameState.Lost,
                     board := setCell b.board x y ⟨79⟩ }, true)
    else
      let b1 := if (cellAt b.board x y).state = BoardCellState.Blank then
          { b with clicked_cells := b.clicked_cells + 1 }
        else b
      let cr := (cellAt b1.board x y).click
      let b2 := { b1 with board := setCell b1.board x y cr.1 }
      if cr.2 then
        let qs := nbrOffsets.foldl (pushStep b2.board b2.rows b2.cols x y) (q, set)
        bfsLoop fuel b2 qs.1 qs.2
      else
        bfsLoop fuel b2 q set

/-- `Board::click`: activate if needed (click-style, `flag = true`), seed the
queue (chord from a Discovered cell whose Flagged-neighbor count equals its
value, or the cell itself if Blank), run the cascade, then the win check —
unless the cascade returned early on a mine. -/
def Board.click (sample : List Nat) (x y : Nat) (b0 : Board) : Option Board :=
  let b := if b0.started then b0 else b0.start sample x y true
  let g := b.board
  let q0 : List (Nat × Nat) :=
    if (cellAt g x y).state = BoardCellState.Discovered ∧
        countFlaggedNbrs g b.rows b.cols x y = (cellAt g x y).value then
      seedBlanks g b.rows b.cols x y
    else []
  let q1 := if (cellAt g x y).state = BoardCellState.Blank then q0 ++ [(x, y)] else q0
  match bfsLoop (b.rows * b.cols + 10) b q1 q1 with
  | none => none
  | some (b', true) => some b'
  | some (b', false) =>
      some (if b'.clicked_cells + b'.mines = b'.cols * b'.rows then
          { b' with game_state := GameState.Won }
        else b')

/-- Two's-complement wrap into the `i16` range [-32768, 32767]: the effect
of the source's `i16` addition (release-mode wrap-around semantics). -/
def wrap16 (n : Int) : Int := (n + 32768) % 65536 - 32768

/-- `Board::flag`: redirect Discovered cells through `click` (chord), then
activate if needed (flag-style, `flag = false`), then cycle the cell's flag
state and apply the delta to the signed flagged-cell counter — an `i16`
`+=`, so the result wraps at ±32768. -/
def Board.flag (sample : List Nat) (x y : Nat) (b0 : Board) : Option Board :=
  let r1 := if (cellAt b0.board x y).state = BoardCellState.Discovered then
      Board.click sample x y b0
    else some b0
  match r1 with
  | none => none
  | some b1 =>
    let b2 := if b1.started then b1 else b1.start sample x y false
    let fr := (cellAt b2.board x y).flag
    some { b2 with board := setCell b2.board x y fr.1,
                   flagged_cells := wrap16 (b2.flagged_cells + fr.2) }

/-! #### `Board::update` -/

/-- The per-cell body of `Board::update`'s double loop (it depends only on
the cell and the terminal game state): non-mine cells are force-revealed via
`BoardCell::click`; on Won every mine becomes the Flagged sentinel `⟨47⟩`;
on Lost every non-Exploded mine becomes the bare sentinel byte `⟨15⟩`. -/
def updateCell (gs : GameState) (c : BoardCell) : BoardCell :=
  if c.value ≠ 15 then (c.click).1
  else if gs = GameState.Won then ⟨47⟩
  else if c.state ≠ BoardCellState.Exploded then ⟨15⟩
  else c

/-- `Board::update`.  The `display_time` refresh is outside the embedding;
the grid is only touched in a terminal state.  The source iterates x in
`0..rows` and y in `0..cols`; the grid is created rows × cols at
construction and never resized, so this is mapping `updateCell` over every
cell. -/
def Board.update (b : Board) : Board :=
  if b.game_state ≠ GameState.InProgress then
    { b with board := b.board.map (fun row => row.map (updateCell b.game_state)) }
  else b

/-! ### Reachability -/

/-- The boards reachable through the public operations, with in-bounds
coordinates (out-of-range access panics in the source) and honest random
samples (`SampleOK`). -/
inductive Reachable : Board → Prop
  | new : ∀ rows cols mines, Reachable (Board.new rows cols mines)
  | click : ∀ b sample x y b', Reachable b → x < b.rows → y < b.cols →
      SampleOK b sample x y → Board.click sample x y b = some b' → Reachable b'
  | flag : ∀ b sample x y b', Reachable b → x < b.rows → y < b.cols →
      SampleOK b sample x y → Board.flag sample x y b = some b' → Reachable b'
  | update : ∀ b, Reachable b → Reachable (Board.update b)

/-! ### Concrete traces used by the counterexamples

Trace A: a 1×4 board with 1 mine.  The first click at (0,3) draws sample
index 0, placing the mine at (0,0); the cascade reveals the three safe cells
and the board is Won.  A further click on the hidden mine at (0,0) then
moves the board from Won to Lost.

Trace B: a 1×6 board with 2 mines at (0,0) and (0,2).  Click (0,5) reveals
three cells; flag (0,1) flags a safe cell; click (0,0) loses; `update` then
leaves the flagged safe cell Flagged instead of revealing it.

Trace C: a 3×3 board with 1 mine whose FIRST action is `flag(0,0)`.  The
activation runs with `flag = false`, so the source skips the index remap
(`delta * (flag as usize)`), and the sampled index 0 lands the mine at
(0,0) itself — inside the 3×3 exclusion neighborhood. -/

/-- Unwrap an operation result along a trace (every use is on a `some`). -/
def oget (o : Option Board) : Board := o.getD (Board.new 0 0 0)

def trA1 : Board := oget (Board.click [0] 0 3 (Board.new 1 4 1))

def trA2 : Board := oget (Board.click [0] 0 0 trA1)

def trB1 : Board := oget (Board.click [0, 2] 0 5 (Board.new 1 6 2))

def trB2 : Board := oget (Board.flag [] 0 1 trB1)

def trB3 : Board := oget (Board.click [] 0 0 trB2)

def trC1 : Board := oget (Board.flag [0] 0 0 (Board.new 3 3 1))

/-- Trace A's boards are reachable. -/
theorem reachable_trA2 : Reachable trA2 :=
  Reachable.click trA1 [0] 0 0 trA2
    (Reachable.click (Board.new 1 4 1) [0] 0 3 trA1 (Reachable.new 1 4 1)
      (by decide) (by decide) (by decide) (by decide))
    (by decide) (by decide) (by decide) (by decide)

/-- Trace B's final board is reachable. -/
theorem reachable_trB3 : Reachable trB3 :=
  Reachable.click trB2 [] 0 0 trB3
    (Reachable.flag trB1 [] 0 1 trB2
      (Reachable.click (Board.new 1 6 2) [0, 2] 0 5 trB1 (Reachable.new 1 6 2)
        (by decide) (by decide) (by decide) (by decide))
      (by decide) (by decide) (by decide) (by decide))
    (by decide) (by decide) (by decide) (by decide)

/-- Trace C's board is reachable. -/
theorem reachable_trC1 : Reachable trC1 :=
  Reachable.flag (Board.new 3 3 1) [0] 0 0 trC1 (Reachable.new 3 3 1)
    (by decide) (by decide) (by decide) (by decide)

/-! ### Claims C1, C2, C3, C6: the falsifying evaluations -/

/-- C1.  With the first action `flag(0, 0)` on a fresh 3×3 board with one
mine, the activation runs with `flag = false` and the source's
`delta * (flag as usize)` drops the skip-the-gaps remap entirely: the valid
sample `[0]` (the space has size 5) places the mine at (0,0) itself, inside
the Chebyshev-distance-≤-1 exclusion neighborhood of the first move — the
board's own cell, at distance 0. -/
theorem flag_activation_mine_in_neighborhood :
    SampleOK (Board.new 3 3 1) [0] 0 0 ∧
    Board.flag [0] 0 0 (Board.new 3 3 1) = some trC1 ∧
    (cellAt trC1.board 0 0).value = 15 := by decide

/-- C2, counterexample.  Trace A: the board `trA1` is reachable with
`game_state = Won` (terminal), yet one further `click` on the hidden mine
yields `trA2` with `game_state = Lost` — a terminal state changed by a
subsequent call. -/
theorem terminal_state_changes_cx :
    Board.click [0] 0 3 (Board.new 1 4 1) = some trA1 ∧
    SampleOK (Board.new 1 4 1) [0] 0 3 ∧
    trA1.game_state = GameState.Won ∧
    Board.click [0] 0 0 trA1 = some trA2 ∧
    trA2.game_state = GameState.Lost ∧
    GameState.Lost ≠ GameState.Won := by decide

/-- C3, counterexample.  The reachable board `trA2` (trace A after losing
from the Won state) satisfies
`clicked_cells + mines = rows * cols` (3 + 1 = 4) while its `game_state` is
Lost, not Won — the equality holds without `Won`, so the claimed
equivalence fails. -/
theorem won_equality_cx :
    Board.click [0] 0 0 trA1 = some trA2 ∧
    trA2.clicked_cells + trA2.mines = trA2.rows * trA2.cols ∧
    trA2.game_state ≠ GameState.Won := by decide

/-- C6, counterexample.  Trace B: the safe cell (0,1) (value 2) was Flagged
before the loss; `update` force-reveals via `BoardCell::click`, which
no-ops on Flagged cells, so after `update` in the Lost state the non-mine
cell (0,1) is still Flagged — not Discovered as the claim requires. -/
theorem update_lost_flagged_safe_cx :
    Board.click [0, 2] 0 5 (Board.new 1 6 2) = some trB1 ∧
    SampleOK (Board.new 1 6 2) [0, 2] 0 5 ∧
    Board.flag [] 0 1 trB1 = some trB2 ∧
    Board.click [] 0 0 trB2 = some trB3 ∧
    trB3.game_state = GameState.Lost ∧
    (cellAt (Board.update trB3).board 0 1).value ≠ 15 ∧
    (cellAt (Board.update trB3).board 0 1).state = BoardCellState.Flagged ∧
    BoardCellState.Flagged ≠ BoardCellState.Discovered := by decide

/-! ### C4: popping a mine ends the cascade at once -/

/-- C4.  Whenever the cascade pops a cell whose value is the mine sentinel
15, the loop returns immediately: `game_state` becomes Lost, exactly that
cell is overwritten with the Exploded sentinel `⟨79⟩` (= 15 + (4 << 4)), and
nothing else changes — the remaining queue `rest` is dropped unprocessed, no
other cell is touched, and `clicked_cells` and `flagged_cells` keep their
values (the record update rewrites only `game_state` and that one cell). -/
theorem cascade_mine_pop (fuel : Nat) (b : Board) (x y : Nat)
    (rest set : List (Nat × Nat))
    (h : (cellAt b.board x y).value = 15) :
    bfsLoop (fuel + 1) b ((x, y) :: rest) set =
      some ({ b with game_state := GameState.Lost,
                     board := setCell b.board x y ⟨79⟩ }, true) := by
  simp [bfsLoop, h]

/-- A one-cell board holding a hidden mine, about to be popped. -/
def mineBoard : Board :=
  { board := [[⟨31⟩]], rows := 1, cols := 1, mines := 1,
    game_state := GameState.InProgress, started := true,
    clicked_cells := 0, flagged_cells := 0 }

/-- C4 witness: the mine-pop step evaluated on `mineBoard`. -/
theorem cascade_mine_pop_witness :
    bfsLoop 1 mineBoard [(0, 0)] [] =
      some ({ mineBoard with game_state := GameState.Lost,
                             board := setCell mineBoard.board 0 0 ⟨79⟩ }, true) :=
  cascade_mine_pop 0 mineBoard 0 0 [] [] (by decide)

/-! ### Bookkeeping lemmas about the cascade and activation -/

/-- The cascade never touches rows, cols, mines, the started flag or the
flagged counter. -/
theorem bfsLoop_fields (fuel : Nat) : ∀ (b : Board) (q set : List (Nat × Nat))
    (b' : Board) (fl : Bool), bfsLoop fuel b q set = some (b', fl) →
    b'.rows = b.rows ∧ b'.cols = b.cols ∧ b'.mines = b.mines ∧
    b'.started = b.started ∧ b'.flagged_cells = b.flagged_cells := by
  induction fuel with
  | zero => intro b q set b' fl h; simp [bfsLoop] at h
  | succ n ih =>
    intro b q set b' fl h
    match q with
    | [] =>
      simp [bfsLoop] at h
      rw [← h.1]; exact ⟨rfl, rfl, rfl, rfl, rfl⟩
    | (x, y) :: rest =>
      rw [bfsLoop] at h
      split at h
      · rw [Option.some.injEq, Prod.mk.injEq] at h
        rw [← h.1]; exact ⟨rfl, rfl, rfl, rfl, rfl⟩
      · dsimp only at h
        split at h
        · split at h
          · have hh := ih _ _ _ _ _ h; exact hh
          · have hh := ih _ _ _ _ _ h; exact hh
        · split at h
          · have hh := ih _ _ _ _ _ h; exact hh
          · have hh := ih _ _ _ _ _ h; exact hh

/-- How the cascade exits determines the game state: an early (mine) exit
leaves the board Lost, a drained queue leaves the game state untouched. -/
theorem bfsLoop_state (fuel : Nat) : ∀ (b : Board) (q set : List (Nat × Nat))
    (b' : Board) (fl : Bool), bfsLoop fuel b q set = some (b', fl) →
    (fl = true → b'.game_state = GameState.Lost) ∧
    (fl = false → b'.game_state = b.game_state) := by
  induction fuel with
  | zero => intro b q set b' fl h; simp [bfsLoop] at h
  | succ n ih =>
    intro b q set b' fl h
    match q with
    | [] =>
      simp [bfsLoop] at h
      constructor
      · intro hfl; rw [hfl] at h; simp at h
      · intro hfl; rw [← h.1]
    | (x, y) :: rest =>
      rw [bfsLoop] at h
      split at h
      · rw [Option.some.injEq, Prod.mk.injEq] at h
        constructor
        · intro hfl; rw [← h.1]
        · intro hfl; rw [hfl] at h; simp at h
      · dsimp only at h
        split at h
        · split at h
          · have hh := ih _ _ _ _ _ h; exact hh
          · have hh := ih _ _ _ _ _ h; exact hh
        · split at h
          · have hh := ih _ _ _ _ _ h; exact hh
          · have hh := ih _ _ _ _ _ h; exact hh

/-- Activation touches only the grid and the started flag: every counter and
the game state survive `Board::start`. -/
theorem start_fields (b : Board) (s : List Nat) (x y : Nat) (f : Bool) :
    (b.start s x y f).rows = b.rows ∧ (b.start s x y f).cols = b.cols ∧
    (b.start s x y f).mines = b.mines ∧
    (b.start s x y f).game_state = b.game_state ∧
    (b.start s x y f).clicked_cells = b.clicked_cells ∧
    (b.start s x y f).flagged_cells = b.flagged_cells ∧
    (b.start s x y f).started = true := by
  have aux : ∀ (l : List Nat) (c : Board),
      (l.foldl placeMine c).rows = c.rows ∧ (l.foldl placeMine c).cols = c.cols ∧
      (l.foldl placeMine c).mines = c.mines ∧
      (l.foldl placeMine c).game_state = c.game_state ∧
      (l.foldl placeMine c).clicked_cells = c.clicked_cells ∧
      (l.foldl placeMine c).flagged_cells = c.flagged_cells ∧
      (l.foldl placeMine c).started = c.started := by
    intro l
    induction l with
    | nil => intro c; exact ⟨rfl, rfl, rfl, rfl, rfl, rfl, rfl⟩
    | cons p t ih =>
      intro c
      have hp : (placeMine c p).rows = c.rows ∧ (placeMine c p).cols = c.cols ∧
          (placeMine c p).mines = c.mines ∧
          (placeMine c p).game_state = c.game_state ∧
          (placeMine c p).clicked_cells = c.clicked_cells ∧
          (placeMine c p).flagged_cells = c.flagged_cells ∧
          (placeMine c p).started = c.started := by
        unfold placeMine; exact ⟨rfl, rfl, rfl, rfl, rfl, rfl, rfl⟩
      have ht := ih (placeMine c p)
      simp only [List.foldl_cons]
      exact ⟨ht.1.trans hp.1, ht.2.1.trans hp.2.1, ht.2.2.1.trans hp.2.2.1,
        ht.2.2.2.1.trans hp.2.2.2.1, ht.2.2.2.2.1.trans hp.2.2.2.2.1,
        ht.2.2.2.2.2.1.trans hp.2.2.2.2.2.1, ht.2.2.2.2.2.2.trans hp.2.2.2.2.2.2⟩
  unfold Board.start
  have h := aux (remapGo (buildRuns (sortAsc (exclusionIdx b.rows b.cols x y))
    (b.rows * b.cols)) 0 (sortAsc s) f) b
  exact ⟨h.1, h.2.1, h.2.2.1, h.2.2.2.1, h.2.2.2.2.1, h.2.2.2.2.2.1, rfl⟩


/-- `Board::click` never moves the game state back to InProgress: the only
assignments it makes are to Lost (mine pop) and Won (win check). -/
theorem click_state (b : Board) (s : List Nat) (x y : Nat) (b' : Board)
    (h : Board.click s x y b = some b')
    (hpost : b'.game_state = GameState.InProgress) :
    b.game_state = GameState.InProgress := by
  unfold Board.click at h
  dsimp only at h
  split at h
  · exact absurd h (by simp)
  · rw [Option.some.injEq] at h
    rename_i b2 heq
    have hl := (bfsLoop_state _ _ _ _ _ _ heq).1 rfl
    rw [← h, hl] at hpost
    exact absurd hpost (by decide)
  · rw [Option.some.injEq] at h
    rename_i b2 heq
    have hgs := (bfsLoop_state _ _ _ _ _ _ heq).2 rfl
    split at h
    · rw [← h] at hpost
      simp at hpost
    · rw [← h] at hpost
      rw [hpost] at hgs
      by_cases hs : b.started = true
      · rw [if_pos hs] at hgs; exact hgs.symm
      · rw [if_neg hs] at hgs
        rw [(start_fields b s x y true).2.2.2.1] at hgs
        exact hgs.symm

/-- C2, amended.  Once terminal, the game state never returns to InProgress:
`update` changes no game state at all, and neither `click` nor `flag` can
produce an InProgress board from a terminal one.  (As the counterexample
shows, `click` CAN still swap one terminal state for the other.) -/
theorem no_return_to_inprogress :
    (∀ b : Board, (Board.update b).game_state = b.game_state) ∧
    (∀ (b : Board) (s : List Nat) (x y : Nat) (b' : Board),
      Board.click s x y b = some b' → b'.game_state = GameState.InProgress →
      b.game_state = GameState.InProgress) ∧
    (∀ (b : Board) (s : List Nat) (x y : Nat) (b' : Board),
      Board.flag s x y b = some b' → b'.game_state = GameState.InProgress →
      b.game_state = GameState.InProgress) := by
  refine ⟨?_, ?_, ?_⟩
  · intro b
    unfold Board.update
    split
    · rfl
    · rfl
  · exact click_state
  · intro b s x y b' h hpost
    unfold Board.flag at h
    dsimp only at h
    split at h
    · exact absurd h (by simp)
    · rename_i b1 heq
      rw [Option.some.injEq] at h
      have hb1 : b1.game_state = GameState.InProgress := by
        rw [← h] at hpost
        by_cases hs : b1.started = true
        · rw [if_pos hs] at hpost; exact hpost
        · rw [if_neg hs] at hpost
          rw [(start_fields b1 s x y false).2.2.2.1] at hpost
          exact hpost
      split at heq
      · exact click_state b s x y b1 heq hb1
      · rw [Option.some.injEq] at heq
        rw [heq]; exact hb1

/-- C2 amended, witness: `update` on a fresh 2×2 board keeps its game state,
and a click on it (empty sample, no mine placed) ends InProgress, so the
click conjunct applies and recovers that the fresh board was InProgress. -/
theorem no_return_to_inprogress_witness :
    (Board.update (Board.new 2 2 1)).game_state = (Board.new 2 2 1).game_state ∧
    (Board.new 2 2 1).game_state = GameState.InProgress :=
  ⟨no_return_to_inprogress.1 (Board.new 2 2 1),
    no_return_to_inprogress.2.1 (Board.new 2 2 1) [] 0 0
      (oget (Board.click [] 0 0 (Board.new 2 2 1))) (by decide) (by decide)⟩

/-- C3, amended.  The equality `clicked_cells + mines = cols * rows` is
exactly the win-check guard: whenever a `click` call moves the game state to
Won from anything else, the equality holds on the resulting board.  It is
not an equivalence invariant afterwards: trace A keeps the equality while
Lost (the counterexample). -/
theorem click_won_equality (b : Board) (s : List Nat) (x y : Nat) (b' : Board)
    (h : Board.click s x y b = some b') (hpre : b.game_state ≠ GameState.Won)
    (hpost : b'.game_state = GameState.Won) :
    b'.clicked_cells + b'.mines = b'.cols * b'.rows := by
  unfold Board.click at h
  dsimp only at h
  split at h
  · exact absurd h (by simp)
  · rw [Option.some.injEq] at h
    rename_i b2 heq
    have hl := (bfsLoop_state _ _ _ _ _ _ heq).1 rfl
    rw [← h, hl] at hpost
    exact absurd hpost (by decide)
  · rw [Option.some.injEq] at h
    rename_i b2 heq
    have hgs := (bfsLoop_state _ _ _ _ _ _ heq).2 rfl
    split at h
    · rename_i hguard
      rw [← h]
      exact hguard
    · rw [← h] at hpost
      rw [hpost] at hgs
      by_cases hs : b.started = true
      · rw [if_pos hs] at hgs; exact absurd hgs.symm hpre
      · rw [if_neg hs] at hgs
        rw [(start_fields b s x y true).2.2.2.1] at hgs
        exact absurd hgs.symm hpre

/-- C3 amended, witness: the first click of trace A establishes Won, and the
equality 3 + 1 = 4 * 1 holds on the resulting board. -/
theorem click_won_equality_witness :
    trA1.clicked_cells + trA1.mines = trA1.cols * trA1.rows :=
  click_won_equality (Board.new 1 4 1) [0] 0 3 trA1 (by decide) (by decide)
    (by decide)


/-! ### C9: `update` is idempotent in a terminal state -/

/-- In a terminal state `update` maps `updateCell` over every cell. -/
theorem update_board_of_terminal (b : Board)
    (h : b.game_state ≠ GameState.InProgress) :
    (Board.update b).board =
      b.board.map (fun row => row.map (updateCell b.game_state)) := by
  unfold Board.update; rw [if_pos h]

/-- `update` never changes the game state. -/
theorem update_game_state (b : Board) :
    (Board.update b).game_state = b.game_state := by
  unfold Board.update; split <;> rfl

/-- One `updateCell` application absorbs a second one. -/
theorem updateCell_idem (gs : GameState) (c : BoardCell) :
    updateCell gs (updateCell gs c) = updateCell gs c := by
  by_cases h15 : c.value = 15
  · cases gs with
    | Won =>
      have h1 : updateCell GameState.Won c = ⟨47⟩ := by
        unfold updateCell; rw [if_neg (by simp [h15]), if_pos rfl]
      rw [h1]; decide
    | Lost =>
      by_cases hex : c.state = BoardCellState.Exploded
      · have h1 : updateCell GameState.Lost c = c := by
          unfold updateCell
          rw [if_neg (by simp [h15]), if_neg (by decide), if_neg (by simp [hex])]
        rw [h1]
        exact h1
      · have h1 : updateCell GameState.Lost c = ⟨15⟩ := by
          unfold updateCell
          rw [if_neg (by simp [h15]), if_neg (by decide), if_pos (by simp [hex])]
        rw [h1]; decide
    | InProgress =>
      by_cases hex : c.state = BoardCellState.Exploded
      · have h1 : updateCell GameState.InProgress c = c := by
          unfold updateCell
          rw [if_neg (by simp [h15]), if_neg (by decide), if_neg (by simp [hex])]
        rw [h1]
        exact h1
      · have h1 : updateCell GameState.InProgress c = ⟨15⟩ := by
          unfold updateCell
          rw [if_neg (by simp [h15]), if_neg (by decide), if_pos (by simp [hex])]
        rw [h1]; decide
  · have h1 : updateCell gs c = (c.click).1 := by
      unfold updateCell; rw [if_pos (by simp [h15])]
    by_cases hb : c.state = BoardCellState.Blank
    · have hclick : (c.click).1 = ⟨c.value⟩ := by
        unfold BoardCell.click; rw [if_pos hb]
      have hvlt : c.value < 16 := Nat.mod_lt _ (by norm_num)
      have hval : (⟨c.value⟩ : BoardCell).value = c.value := Nat.mod_eq_of_lt hvlt
      have hst : (⟨c.value⟩ : BoardCell).state = BoardCellState.Discovered := by
        unfold BoardCell.state
        rw [show ((⟨c.value⟩ : BoardCell).cell / 16) = 0 from Nat.div_eq_of_lt hvlt]
      rw [h1, hclick]
      unfold updateCell
      rw [if_pos (by rw [hval]; simp [h15])]
      unfold BoardCell.click
      rw [if_neg (by rw [hst]; decide)]
    · have hclick : (c.click).1 = c := by
        unfold BoardCell.click; rw [if_neg hb]
      rw [h1, hclick]
      rw [h1, hclick]

/-- C9.  `Board::update` is idempotent on the grid in any terminal state:
the second call maps `updateCell` over the already-updated grid and changes
no cell, so the grid contents after two calls equal those after one. -/
theorem update_idempotent (b : Board)
    (h : b.game_state ≠ GameState.InProgress) :
    (Board.update (Board.update b)).board = (Board.update b).board := by
  have hterm2 : (Board.update b).game_state ≠ GameState.InProgress := by
    rw [update_game_state]; exact h
  rw [update_board_of_terminal (Board.update b) hterm2, update_game_state,
      update_board_of_terminal b h, List.map_map]
  have hff : updateCell b.game_state ∘ updateCell b.game_state =
      updateCell b.game_state := funext (updateCell_idem b.game_state)
  have hFF : ((fun row : List BoardCell => row.map (updateCell b.game_state)) ∘
      (fun row : List BoardCell => row.map (updateCell b.game_state))) =
      (fun row : List BoardCell => row.map (updateCell b.game_state)) := by
    funext row
    simp only [Function.comp_apply, List.map_map, hff]
  rw [hFF]

/-- C9 witness: idempotence evaluated on the terminal (Lost) board of
trace A. -/
theorem update_idempotent_witness :
    (Board.update (Board.update trA2)).board = (Board.update trA2).board :=
  update_idempotent trA2 (by decide)


/-! ### C6: what `update` does to each cell in a terminal state -/

/-- `List.getD` through `map`, at an in-range index. -/
theorem getD_map_lt {α β : Type} (f : α → β) (l : List α) (n : Nat) (d : α)
    (d' : β) (h : n < l.length) : (l.map f).getD n d' = f (l.getD n d) := by
  induction l generalizing n with
  | nil => simp at h
  | cons a t ih =>
    cases n with
    | zero => rfl
    | succ m =>
      simp only [List.map_cons, List.getD_cons_succ]
      exact ih m (by simp at h; omega)

/-- `cellAt` through a whole-grid map, at an in-range position. -/
theorem cellAt_map (f : BoardCell → BoardCell) (g : List (List BoardCell))
    (x y : Nat) (hx : x < g.length) (hy : y < (g.getD x []).length) :
    cellAt (g.map (fun row => row.map f)) x y = f (cellAt g x y) := by
  unfold cellAt
  rw [getD_map_lt (fun row => row.map f) g x [] [] hx]
  exact getD_map_lt f (g.getD x []) y ⟨0⟩ ⟨0⟩ hy

/-- `updateCell` on a safe cell is `BoardCell::click`. -/
theorem updateCell_safe (gs : GameState) (c : BoardCell) (hv : c.value ≠ 15) :
    updateCell gs c = (c.click).1 := by
  unfold updateCell; rw [if_pos (by simp [hv])]

/-- `BoardCell::click` reveals a Blank cell in place. -/
theorem click1_blank (c : BoardCell) (hb : c.state = BoardCellState.Blank) :
    (c.click).1 = ⟨c.value⟩ := by
  unfold BoardCell.click; rw [if_pos hb]

/-- `BoardCell::click` is the identity on non-Blank cells. -/
theorem click1_nonblank (c : BoardCell)
    (hb : c.state ≠ BoardCellState.Blank) : (c.click).1 = c := by
  unfold BoardCell.click; rw [if_neg hb]

/-- Bytes below 16 decode to Discovered cells. -/
theorem state_small (n : Nat) (h : n < 16) :
    (⟨n⟩ : BoardCell).state = BoardCellState.Discovered := by
  unfold BoardCell.state
  rw [show ((⟨n⟩ : BoardCell).cell / 16) = 0 from Nat.div_eq_of_lt h]

/-- Bytes below 16 decode to their own value. -/
theorem value_small (n : Nat) (h : n < 16) :
    (⟨n⟩ : BoardCell).value = n := Nat.mod_eq_of_lt h

/-- C6, amended.  In a terminal state `update` acts cell by cell:
if Won, every mine becomes the Flagged sentinel `⟨47⟩` (and the flagged-cell
counter is untouched) and every non-mine BLANK cell is revealed in place;
if Lost, every non-mine BLANK cell is revealed in place, every non-Exploded
mine becomes the bare sentinel `⟨15⟩` (neither Flagged nor Exploded), and the
exploded mine is kept.  Non-mine cells that are not Blank — in particular
Flagged or Question safe cells — are left exactly as they are, NOT revealed
(the counterexample shows such a cell surviving `update` after a loss). -/
theorem update_terminal_spec (b : Board) (x y : Nat)
    (hterm : b.game_state ≠ GameState.InProgress)
    (hx : x < b.board.length) (hy : y < (b.board.getD x []).length) :
    ((Board.update b).flagged_cells = b.flagged_cells) ∧
    (b.game_state = GameState.Won →
      ((cellAt b.board x y).value = 15 →
        cellAt (Board.update b).board x y = ⟨47⟩ ∧
        (⟨47⟩ : BoardCell).state = BoardCellState.Flagged ∧
        (⟨47⟩ : BoardCell).value = 15) ∧
      ((cellAt b.board x y).value ≠ 15 →
        (cellAt b.board x y).state = BoardCellState.Blank →
        (cellAt (Board.update b).board x y).state = BoardCellState.Discovered ∧
        (cellAt (Board.update b).board x y).value = (cellAt b.board x y).value) ∧
      ((cellAt b.board x y).value ≠ 15 →
        (cellAt b.board x y).state ≠ BoardCellState.Blank →
        cellAt (Board.update b).board x y = cellAt b.board x y)) ∧
    (b.game_state = GameState.Lost →
      ((cellAt b.board x y).value ≠ 15 →
        (cellAt b.board x y).state = BoardCellState.Blank →
        (cellAt (Board.update b).board x y).state = BoardCellState.Discovered ∧
        (cellAt (Board.update b).board x y).value = (cellAt b.board x y).value) ∧
      ((cellAt b.board x y).value ≠ 15 →
        (cellAt b.board x y).state ≠ BoardCellState.Blank →
        cellAt (Board.update b).board x y = cellAt b.board x y) ∧
      ((cellAt b.board x y).value = 15 →
        (cellAt b.board x y).state = BoardCellState.Exploded →
        cellAt (Board.update b).board x y = cellAt b.board x y) ∧
      ((cellAt b.board x y).value = 15 →
        (cellAt b.board x y).state ≠ BoardCellState.Exploded →
        cellAt (Board.update b).board x y = ⟨15⟩ ∧
        (⟨15⟩ : BoardCell).state ≠ BoardCellState.Flagged ∧
        (⟨15⟩ : BoardCell).state ≠ BoardCellState.Exploded)) := by
  have hcell : cellAt (Board.update b).board x y =
      updateCell b.game_state (cellAt b.board x y) := by
    rw [update_board_of_terminal b hterm]
    exact cellAt_map _ _ _ _ hx hy
  have hflag : (Board.update b).flagged_cells = b.flagged_cells := by
    unfold Board.update; split <;> rfl
  have hvlt : (cellAt b.board x y).value < 16 := Nat.mod_lt _ (by norm_num)
  refine ⟨hflag, ?_, ?_⟩
  · intro hwon
    refine ⟨?_, ?_, ?_⟩
    · intro hv
      have h1 : updateCell b.game_state (cellAt b.board x y) = ⟨47⟩ := by
        unfold updateCell; rw [if_neg (by simp [hv]), if_pos hwon]
      rw [hcell, h1]
      exact ⟨rfl, by decide, by decide⟩
    · intro hv hblank
      rw [hcell, updateCell_safe _ _ hv, click1_blank _ hblank]
      exact ⟨state_small _ hvlt, value_small _ hvlt⟩
    · intro hv hblank
      rw [hcell, updateCell_safe _ _ hv, click1_nonblank _ hblank]
  · intro hlost
    refine ⟨?_, ?_, ?_, ?_⟩
    · intro hv hblank
      rw [hcell, updateCell_safe _ _ hv, click1_blank _ hblank]
      exact ⟨state_small _ hvlt, value_small _ hvlt⟩
    · intro hv hblank
      rw [hcell, updateCell_safe _ _ hv, click1_nonblank _ hblank]
    · intro hv hex
      have h1 : updateCell b.game_state (cellAt b.board x y) = cellAt b.board x y := by
        unfold updateCell
        rw [if_neg (by simp [hv]), if_neg (by rw [hlost]; decide),
          if_neg (by simp [hex])]
      rw [hcell, h1]
    · intro hv hex
      have h1 : updateCell b.game_state (cellAt b.board x y) = ⟨15⟩ := by
        unfold updateCell
        rw [if_neg (by simp [hv]), if_neg (by rw [hlost]; decide),
          if_pos (by simp [hex])]
      rw [hcell, h1]
      exact ⟨rfl, by decide, by decide⟩

/-- C6 amended, witness: on trace B's Lost board, the hidden (non-Exploded)
mine at (0,2) becomes the bare sentinel `⟨15⟩`, and the flagged counter is
untouched. -/
theorem update_terminal_spec_witness :
    cellAt (Board.update trB3).board 0 2 = ⟨15⟩ ∧
    (Board.update trB3).flagged_cells = trB3.flagged_cells := by
  have h := update_terminal_spec trB3 0 2 (by decide) (by decide) (by decide)
  exact ⟨((h.2.2 (by decide)).2.2.2 (by decide) (by decide)).1, h.1⟩

/-! ### C10: the flagged-cell counter invariant

The development below proves that on every reachable board that is still
InProgress, `flagged_cells` equals the number of Flagged cells of the grid.
The invariant is carried through every operation together with grid
well-formedness and the fact that no cell ever holds an `Other` tag
(tags stay ≤ 4, i.e. every cell byte stays below 80). -/

/-- 1 exactly on Flagged cells. -/
def flagBit (c : BoardCell) : Nat := if c.cell / 16 = 2 then 1 else 0

/-- Number of Flagged cells in a row. -/
def countRow (r : List BoardCell) : Nat := (r.map flagBit).sum

/-- Number of Flagged cells in the grid. -/
def countFlagged (g : List (List BoardCell)) : Nat := (g.map countRow).sum

/-- The grid is rows × cols and holds no `Other`-tagged cell. -/
def GridOK (g : List (List BoardCell)) (rows cols : Nat) : Prop :=
  g.length = rows ∧ (∀ r ∈ g, r.length = cols) ∧
    (∀ r ∈ g, ∀ c ∈ r, c.cell / 16 ≤ 4)

/-- The reachable-board invariant: a well-formed grid without `Other` tags,
and — while the game is InProgress — a flagged counter equal to the `i16`
wrap of the number of Flagged cells (the two coincide as long as fewer than
32768 cells are Flagged). -/
def Inv (b : Board) : Prop :=
  GridOK b.board b.rows b.cols ∧
    (b.game_state = GameState.InProgress →
      b.flagged_cells = wrap16 (countFlagged b.board))

/-- Which state a packed byte decodes to, by its high nibble. -/
theorem state_cases (c : BoardCell) :
    (c.cell / 16 = 0 ∧ c.state = BoardCellState.Discovered) ∨
    (c.cell / 16 = 1 ∧ c.state = BoardCellState.Blank) ∨
    (c.cell / 16 = 2 ∧ c.state = BoardCellState.Flagged) ∨
    (c.cell / 16 = 3 ∧ c.state = BoardCellState.Question) ∨
    (c.cell / 16 = 4 ∧ c.state = BoardCellState.Exploded) ∨
    (5 ≤ c.cell / 16 ∧ c.state = BoardCellState.Other) := by
  unfold BoardCell.state
  split
  · rename_i h; exact Or.inl ⟨h, rfl⟩
  · rename_i h; exact Or.inr (Or.inl ⟨h, rfl⟩)
  · rename_i h; exact Or.inr (Or.inr (Or.inl ⟨h, rfl⟩))
  · rename_i h; exact Or.inr (Or.inr (Or.inr (Or.inl ⟨h, rfl⟩)))
  · rename_i h; exact Or.inr (Or.inr (Or.inr (Or.inr (Or.inl ⟨h, rfl⟩))))
  · rename_i n h0 h1 h2 h3 h4
    refine Or.inr (Or.inr (Or.inr (Or.inr (Or.inr ⟨?_, rfl⟩))))
    have g0 : c.cell / 16 ≠ 0 := h0
    have g1 : c.cell / 16 ≠ 1 := h1
    have g2 : c.cell / 16 ≠ 2 := h2
    have g3 : c.cell / 16 ≠ 3 := h3
    have g4 : c.cell / 16 ≠ 4 := h4
    omega

/-- For tags ≤ 4 the `as u8` cast of the decoded state is the tag itself. -/
theorem code_state (c : BoardCell) (h : c.cell / 16 ≤ 4) :
    (c.state).code = c.cell / 16 := by
  rcases state_cases c with ⟨h1, h2⟩ | ⟨h1, h2⟩ | ⟨h1, h2⟩ | ⟨h1, h2⟩ |
    ⟨h1, h2⟩ | ⟨h1, h2⟩
  · rw [h2, h1]; rfl
  · rw [h2, h1]; rfl
  · rw [h2, h1]; rfl
  · rw [h2, h1]; rfl
  · rw [h2, h1]; rfl
  · omega

/-! #### List bookkeeping -/

/-- `getD` after `set` at the same in-range index. -/
theorem getD_set_self {α : Type} (l : List α) (n : Nat) (a d : α)
    (h : n < l.length) : (l.set n a).getD n d = a := by
  rw [List.getD_eq_getElem?_getD, List.getElem?_set_self (by omega),
    Option.getD_some]

/-- `getD` after `set` at a different index. -/
theorem getD_set_ne {α : Type} (l : List α) (n m : Nat) (a d : α)
    (h : n ≠ m) : (l.set n a).getD m d = l.getD m d := by
  rw [List.getD_eq_getElem?_getD, List.getElem?_set_ne h,
    ← List.getD_eq_getElem?_getD]

/-- An in-range `getD` is a member. -/
theorem getD_mem {α : Type} (l : List α) (n : Nat) (d : α)
    (h : n < l.length) : l.getD n d ∈ l := by
  rw [List.getD_eq_getElem?_getD, List.getElem?_eq_getElem h, Option.getD_some]
  exact List.getElem_mem h

/-- Setting an index to its own current value changes nothing. -/
theorem set_getD_self {α : Type} (l : List α) (n : Nat) (d : α) :
    l.set n (l.getD n d) = l := by
  induction l generalizing n with
  | nil => rfl
  | cons a t ih =>
    cases n with
    | zero => rfl
    | succ m =>
      simp only [List.getD_cons_succ, List.set_cons_succ]
      rw [ih m]

/-- `setCell` with an out-of-range row is a no-op. -/
theorem setCell_oob_x (g : List (List BoardCell)) (x y : Nat) (c : BoardCell)
    (h : g.length ≤ x) : setCell g x y c = g := by
  unfold setCell; exact List.set_eq_of_length_le h

/-- `setCell` with an out-of-range column is a no-op. -/
theorem setCell_oob_y (g : List (List BoardCell)) (x y : Nat) (c : BoardCell)
    (h : (g.getD x []).length ≤ y) : setCell g x y c = g := by
  unfold setCell
  rw [List.set_eq_of_length_le h]
  exact set_getD_self g x []

/-- How setting one cell moves the per-row Flagged count. -/
theorem countRow_set (r : List BoardCell) (y : Nat) (c : BoardCell)
    (h : y < r.length) :
    countRow (r.set y c) + flagBit (r.getD y ⟨0⟩) = countRow r + flagBit c := by
  induction r generalizing y with
  | nil => simp at h
  | cons a t ih =>
    cases y with
    | zero =>
      simp only [List.set_cons_zero, List.getD_cons_zero, countRow,
        List.map_cons, List.sum_cons]
      omega
    | succ m =>
      have hm := ih m (by simp at h; omega)
      simp only [List.set_cons_succ, List.getD_cons_succ, countRow,
        List.map_cons, List.sum_cons]
      simp only [countRow] at hm
      omega

/-- How setting one cell moves the whole-grid Flagged count. -/
theorem countFlagged_setCell (g : List (List BoardCell)) (x y : Nat)
    (c : BoardCell) (hx : x < g.length) (hy : y < (g.getD x []).length) :
    countFlagged (setCell g x y c) + flagBit (cellAt g x y) =
      countFlagged g + flagBit c := by
  induction g generalizing x with
  | nil => simp at hx
  | cons r t ih =>
    cases x with
    | zero =>
      unfold setCell cellAt
      simp only [List.getD_cons_zero, List.set_cons_zero, countFlagged,
        List.map_cons, List.sum_cons]
      have hr := countRow_set r y c (by simpa using hy)
      omega
    | succ m =>
      have hm := ih m (by simp at hx; omega) (by simpa using hy)
      unfold setCell cellAt
      unfold setCell cellAt at hm
      simp only [List.getD_cons_succ, List.set_cons_succ, countFlagged,
        List.map_cons, List.sum_cons]
      simp only [countFlagged] at hm
      omega

/-- `setCell` with a tag-≤-4 cell preserves `GridOK`. -/
theorem setCell_GridOK (g : List (List BoardCell)) (rows cols x y : Nat)
    (c : BoardCell) (hg : GridOK g rows cols) (hc : c.cell / 16 ≤ 4) :
    GridOK (setCell g x y c) rows cols := by
  by_cases hx : x < g.length
  · obtain ⟨hlen, hrows, htags⟩ := hg
    refine ⟨?_, ?_, ?_⟩
    · unfold setCell; rw [List.length_set]; exact hlen
    · intro r hr
      unfold setCell at hr
      rcases List.mem_or_eq_of_mem_set hr with hr | hr
      · exact hrows r hr
      · rw [hr, List.length_set]
        exact hrows _ (getD_mem g x [] hx)
    · intro r hr cc hcc
      unfold setCell at hr
      rcases List.mem_or_eq_of_mem_set hr with hr | hr
      · exact htags r hr cc hcc
      · rw [hr] at hcc
        rcases List.mem_or_eq_of_mem_set hcc with hcc | hcc
        · exact htags _ (getD_mem g x [] hx) cc hcc
        · rw [hcc]; exact hc
  · rw [setCell_oob_x g x y c (by omega)]; exact hg

/-- Under `GridOK`-style tags, every `cellAt` read has tag ≤ 4 (out-of-range
reads return the default `⟨0⟩`). -/
theorem tag_cellAt_le (g : List (List BoardCell))
    (ht : ∀ r ∈ g, ∀ c ∈ r, c.cell / 16 ≤ 4) (x y : Nat) :
    (cellAt g x y).cell / 16 ≤ 4 := by
  unfold cellAt
  by_cases hx : x < g.length
  · by_cases hy : y < (g.getD x []).length
    · exact ht _ (getD_mem g x [] hx) _ (getD_mem _ y ⟨0⟩ hy)
    · have hge : (g.getD x []).length ≤ y := by omega
      rw [List.getD_eq_default _ _ hge]
      decide
  · have hge : g.length ≤ x := by omega
    rw [List.getD_eq_default _ _ hge]
    simp only [List.getD_nil]
    decide

/-! #### Cell-operation facts (all cells in play have byte < 80) -/

/-- `BoardCell::click` never creates or destroys a Flagged cell. -/
theorem flagBit_click (c : BoardCell) (h : c.cell / 16 ≤ 4) :
    flagBit ((c.click).1) = flagBit c :=
  (show ∀ n, n < 80 → flagBit (((⟨n⟩ : BoardCell).click).1) =
    flagBit (⟨n⟩ : BoardCell) by decide) c.cell (by omega)

/-- `BoardCell::click` keeps tags ≤ 4. -/
theorem click_tag (c : BoardCell) (h : c.cell / 16 ≤ 4) :
    (((c.click).1)).cell / 16 ≤ 4 :=
  (show ∀ n, n < 80 → ((((⟨n⟩ : BoardCell).click).1)).cell / 16 ≤ 4 by decide)
    c.cell (by omega)

/-- `BoardCell::flag` keeps tags ≤ 4. -/
theorem flag_tag (c : BoardCell) (h : c.cell / 16 ≤ 4) :
    (((c.flag).1)).cell / 16 ≤ 4 :=
  (show ∀ n, n < 80 → ((((⟨n⟩ : BoardCell).flag).1)).cell / 16 ≤ 4 by decide)
    c.cell (by omega)

/-- The delta returned by `BoardCell::flag` is exactly the change of the
Flagged indicator of the cell, for every tag ≤ 4 (this FAILS for `Other`
cells, which no board operation ever creates). -/
theorem flag_delta_bit (c : BoardCell) (h : c.cell / 16 ≤ 4) :
    (c.flag).2 = (flagBit ((c.flag).1) : Int) - (flagBit c : Int) :=
  (show ∀ n, n < 80 → ((⟨n⟩ : BoardCell).flag).2 =
      (flagBit (((⟨n⟩ : BoardCell).flag).1) : Int) -
      (flagBit (⟨n⟩ : BoardCell) : Int) by decide) c.cell (by omega)

/-- `updateCell` keeps tags ≤ 4. -/
theorem updateCell_tag (gs : GameState) (c : BoardCell) (h : c.cell / 16 ≤ 4) :
    (updateCell gs c).cell / 16 ≤ 4 := by
  cases gs
  · exact (show ∀ n, n < 80 →
      (updateCell GameState.InProgress (⟨n⟩ : BoardCell)).cell / 16 ≤ 4 by decide)
      c.cell (by omega)
  · exact (show ∀ n, n < 80 →
      (updateCell GameState.Won (⟨n⟩ : BoardCell)).cell / 16 ≤ 4 by decide)
      c.cell (by omega)
  · exact (show ∀ n, n < 80 →
      (updateCell GameState.Lost (⟨n⟩ : BoardCell)).cell / 16 ≤ 4 by decide)
      c.cell (by omega)

/-! #### Placement preserves the invariant -/

/-- The adjacency bump preserves grid shape, tags and the Flagged count. -/
theorem bumpStep_inv (rows cols x y : Nat) (g : List (List BoardCell))
    (d : Int × Int) (hg : GridOK g rows cols) :
    GridOK (bumpStep rows cols x y g d) rows cols ∧
    countFlagged (bumpStep rows cols x y g d) = countFlagged g := by
  unfold bumpStep
  dsimp only
  split
  · split
    · rename_i hinb hv
      have hlen := hg.1
      unfold inb at hinb
      have hx : (((x : Int) + d.1).toNat) < g.length := by omega
      have hrowlen : (g.getD (((x : Int) + d.1).toNat) []).length = cols :=
        hg.2.1 _ (getD_mem _ _ _ hx)
      have hy : (((y : Int) + d.2).toNat) <
          (g.getD (((x : Int) + d.1).toNat) []).length := by omega
      have htag := tag_cellAt_le g hg.2.2 (((x : Int) + d.1).toNat)
        (((y : Int) + d.2).toNat)
      have hv2 : (cellAt g (((x : Int) + d.1).toNat) (((y : Int) + d.2).toNat)).cell
          % 16 ≠ 15 := hv
      have htag2 : ((⟨((cellAt g (((x : Int) + d.1).toNat)
          (((y : Int) + d.2).toNat)).cell + 1) % 256⟩ : BoardCell)).cell / 16 =
          (cellAt g (((x : Int) + d.1).toNat) (((y : Int) + d.2).toNat)).cell / 16 := by
        show ((cellAt g (((x : Int) + d.1).toNat)
          (((y : Int) + d.2).toNat)).cell + 1) % 256 / 16 = _
        omega
      have hbit : flagBit ⟨((cellAt g (((x : Int) + d.1).toNat)
          (((y : Int) + d.2).toNat)).cell + 1) % 256⟩ =
          flagBit (cellAt g (((x : Int) + d.1).toNat) (((y : Int) + d.2).toNat)) := by
        unfold flagBit
        rw [htag2]
      have hcnt := countFlagged_setCell g (((x : Int) + d.1).toNat)
        (((y : Int) + d.2).toNat)
        ⟨((cellAt g (((x : Int) + d.1).toNat) (((y : Int) + d.2).toNat)).cell + 1) % 256⟩
        hx hy
      refine ⟨setCell_GridOK g rows cols _ _ _ hg (by rw [htag2]; exact htag), ?_⟩
      omega
    · exact ⟨hg, rfl⟩
  · exact ⟨hg, rfl⟩

/-- Folding the bump over any offset list preserves shape, tags and count. -/
theorem bumpFold_inv (rows cols x y : Nat) :
    ∀ (l : List (Int × Int)) (g : List (List BoardCell)), GridOK g rows cols →
      GridOK (l.foldl (bumpStep rows cols x y) g) rows cols ∧
      countFlagged (l.foldl (bumpStep rows cols x y) g) = countFlagged g := by
  intro l
  induction l with
  | nil => intro g hg; exact ⟨hg, rfl⟩
  | cons d t ih =>
    intro g hg
    have hstep := bumpStep_inv rows cols x y g d hg
    have ht := ih (bumpStep rows cols x y g d) hstep.1
    exact ⟨ht.1, ht.2.trans hstep.2⟩

/-- `placeMine` preserves the invariant (the mine write keeps the tag, the
bumps keep tags and the Flagged count; no counter or state changes). -/
theorem placeMine_inv (b : Board) (p : Nat) (h : Inv b) : Inv (placeMine b p) := by
  obtain ⟨hg, hflag⟩ := h
  have htagc := tag_cellAt_le b.board hg.2.2 (p / b.cols) (p % b.cols)
  have hcode := code_state _ htagc
  have htagw : ((⟨15 + ((cellAt b.board (p / b.cols) (p % b.cols)).state.code) * 16⟩ :
      BoardCell)).cell / 16 =
      (cellAt b.board (p / b.cols) (p % b.cols)).cell / 16 := by
    show (15 + ((cellAt b.board (p / b.cols) (p % b.cols)).state.code) * 16) / 16 = _
    rw [hcode]; omega
  have hg1 : GridOK (setCell b.board (p / b.cols) (p % b.cols)
      ⟨15 + ((cellAt b.board (p / b.cols) (p % b.cols)).state.code) * 16⟩)
      b.rows b.cols :=
    setCell_GridOK _ _ _ _ _ _ hg (by rw [htagw]; exact htagc)
  have hc1 : countFlagged (setCell b.board (p / b.cols) (p % b.cols)
      ⟨15 + ((cellAt b.board (p / b.cols) (p % b.cols)).state.code) * 16⟩) =
      countFlagged b.board := by
    by_cases hx : p / b.cols < b.board.length
    · by_cases hy : p % b.cols < (b.board.getD (p / b.cols) []).length
      · have hcnt := countFlagged_setCell b.board (p / b.cols) (p % b.cols)
          ⟨15 + ((cellAt b.board (p / b.cols) (p % b.cols)).state.code) * 16⟩ hx hy
        have hbit : flagBit ⟨15 + ((cellAt b.board (p / b.cols)
            (p % b.cols)).state.code) * 16⟩ =
            flagBit (cellAt b.board (p / b.cols) (p % b.cols)) := by
          unfold flagBit
          rw [htagw]
        omega
      · rw [setCell_oob_y _ _ _ _ (by omega)]
    · rw [setCell_oob_x _ _ _ _ (by omega)]
  have hfold := bumpFold_inv b.rows b.cols (p / b.cols) (p % b.cols) nbrOffsets _ hg1
  unfold placeMine
  dsimp only
  refine ⟨hfold.1, ?_⟩
  intro hip
  rw [hfold.2.trans hc1]
  exact hflag hip

/-- Folding `placeMine` over the mine positions preserves the invariant. -/
theorem foldl_placeMine_inv : ∀ (l : List Nat) (b : Board), Inv b →
    Inv (l.foldl placeMine b) := by
  intro l
  induction l with
  | nil => intro b hb; exact hb
  | cons p t ih =>
    intro b hb
    simp only [List.foldl_cons]
    exact ih (placeMine b p) (placeMine_inv b p hb)

/-- `Board::start` preserves the invariant. -/
theorem start_inv (b : Board) (s : List Nat) (x y : Nat) (f : Bool)
    (h : Inv b) : Inv (b.start s x y f) := by
  unfold Board.start
  dsimp only
  have hf := foldl_placeMine_inv
    (remapGo (buildRuns (sortAsc (exclusionIdx b.rows b.cols x y))
      (b.rows * b.cols)) 0 (sortAsc s) f) b h
  exact ⟨hf.1, fun hip => hf.2 hip⟩

/-! #### The cascade preserves the invariant -/

/-- Everything the push fold adds to the queue is in bounds. -/
theorem pushAux (g : List (List BoardCell)) (rows cols x y : Nat) :
    ∀ (l : List (Int × Int)) (acc : List (Nat × Nat) × List (Nat × Nat))
      (e : Nat × Nat), e ∈ (l.foldl (pushStep g rows cols x y) acc).1 →
      e ∈ acc.1 ∨ (e.1 < rows ∧ e.2 < cols) := by
  intro l
  induction l with
  | nil => intro acc e he; exact Or.inl he
  | cons d t ih =>
    intro acc e he
    rcases ih (pushStep g rows cols x y acc d) e (by simpa using he) with h1 | h1
    · unfold pushStep at h1
      dsimp only at h1
      split at h1
      · split at h1
        · rename_i hinb hcond
          rcases List.mem_append.1 h1 with h2 | h2
          · exact Or.inl h2
          · right
            have h3 : e = (((x : Int) + d.1).toNat, ((y : Int) + d.2).toNat) := by
              simpa using h2
            unfold inb at hinb
            rw [h3]
            exact ⟨by dsimp only; omega, by dsimp only; omega⟩
        · exact Or.inl h1
      · exact Or.inl h1
    · exact Or.inr h1

/-- Every chord seed is in bounds. -/
theorem seedAux (g : List (List BoardCell)) (rows cols x y : Nat) :
    ∀ (l : List (Int × Int)) (acc : List (Nat × Nat)) (e : Nat × Nat),
      e ∈ l.foldl (seedStep g rows cols x y) acc →
      e ∈ acc ∨ (e.1 < rows ∧ e.2 < cols) := by
  intro l
  induction l with
  | nil => intro acc e he; exact Or.inl he
  | cons d t ih =>
    intro acc e he
    rcases ih (seedStep g rows cols x y acc d) e (by simpa using he) with h1 | h1
    · unfold seedStep at h1
      dsimp only at h1
      split at h1
      · split at h1
        · rename_i hinb hcond
          rcases List.mem_append.1 h1 with h2 | h2
          · exact Or.inl h2
          · right
            have h3 : e = (((x : Int) + d.1).toNat, ((y : Int) + d.2).toNat) := by
              simpa using h2
            unfold inb at hinb
            rw [h3]
            exact ⟨by dsimp only; omega, by dsimp only; omega⟩
        · exact Or.inl h1
      · exact Or.inl h1
    · exact Or.inr h1

/-- Changing only the clicked counter keeps the invariant. -/
theorem inv_clicked (b : Board) (k : Nat) (h : Inv b) :
    Inv { b with clicked_cells := k } := h

/-- Revealing the cell at an in-bounds position keeps the invariant
(`BoardCell::click` never changes the Flagged count). -/
theorem inv_cellclick (b : Board) (x y : Nat) (hx : x < b.rows)
    (hy : y < b.cols) (h : Inv b) :
    Inv { b with board := setCell b.board x y ((cellAt b.board x y).click).1 } := by
  obtain ⟨hg, hflag⟩ := h
  have htag := tag_cellAt_le b.board hg.2.2 x y
  have hxl : x < b.board.length := by rw [hg.1]; exact hx
  have hyl : y < (b.board.getD x []).length := by
    rw [hg.2.1 _ (getD_mem _ _ _ hxl)]; exact hy
  have hcnt := countFlagged_setCell b.board x y ((cellAt b.board x y).click).1 hxl hyl
  have hbit := flagBit_click (cellAt b.board x y) htag
  refine ⟨setCell_GridOK _ _ _ _ _ _ hg (click_tag _ htag), ?_⟩
  intro hip
  have h2 := hflag hip
  have h3 : countFlagged (setCell b.board x y ((cellAt b.board x y).click).1) =
      countFlagged b.board := by omega
  rw [h3]
  exact h2

/-- The cascade preserves the invariant, provided the queue only holds
in-bounds positions. -/
theorem bfsLoop_inv (fuel : Nat) : ∀ (b : Board) (q set : List (Nat × Nat))
    (b' : Board) (fl : Bool), bfsLoop fuel b q set = some (b', fl) →
    (∀ p ∈ q, p.1 < b.rows ∧ p.2 < b.cols) → Inv b → Inv b' := by
  induction fuel with
  | zero => intro b q set b' fl h hq hinv; simp [bfsLoop] at h
  | succ n ih =>
    intro b q set b' fl h hq hinv
    match q with
    | [] =>
      simp [bfsLoop] at h
      rw [← h.1]; exact hinv
    | (x, y) :: rest =>
      have hxy := hq (x, y) (by simp)
      have hrest : ∀ p ∈ rest, p.1 < b.rows ∧ p.2 < b.cols := by
        intro p hp; exact hq p (by simp [hp])
      rw [bfsLoop] at h
      split at h
      · rw [Option.some.injEq, Prod.mk.injEq] at h
        rw [← h.1]
        refine ⟨setCell_GridOK _ _ _ _ _ _ hinv.1 (by decide), ?_⟩
        intro hip
        simp at hip
      · dsimp only at h
        split at h
        · split at h
          · have hinv2 := inv_cellclick { b with clicked_cells := b.clicked_cells + 1 }
              x y hxy.1 hxy.2 (inv_clicked b _ hinv)
            have hh := ih _ _ _ _ _ h ?_ hinv2
            · exact hh
            · intro p hp
              rcases pushAux _ _ _ x y nbrOffsets _ p hp with h1 | h1
              · exact hrest p h1
              · exact h1
          · have hinv2 := inv_cellclick { b with clicked_cells := b.clicked_cells + 1 }
              x y hxy.1 hxy.2 (inv_clicked b _ hinv)
            have hh := ih _ _ _ _ _ h hrest hinv2
            exact hh
        · split at h
          · have hinv2 := inv_cellclick b x y hxy.1 hxy.2 hinv
            have hh := ih _ _ _ _ _ h ?_ hinv2
            · exact hh
            · intro p hp
              rcases pushAux _ _ _ x y nbrOffsets _ p hp with h1 | h1
              · exact hrest p h1
              · exact h1
          · have hinv2 := inv_cellclick b x y hxy.1 hxy.2 hinv
            have hh := ih _ _ _ _ _ h hrest hinv2
            exact hh

/-! #### The public operations preserve the invariant -/

/-- `Board::click` never changes rows or cols. -/
theorem click_fields (b : Board) (s : List Nat) (x y : Nat) (b' : Board)
    (h : Board.click s x y b = some b') :
    b'.rows = b.rows ∧ b'.cols = b.cols := by
  have hstart : (if b.started = true then b else Board.start b s x y true).rows
      = b.rows ∧
      (if b.started = true then b else Board.start b s x y true).cols = b.cols := by
    by_cases hb : b.started = true
    · rw [if_pos hb]; exact ⟨rfl, rfl⟩
    · rw [if_neg hb]
      exact ⟨(start_fields b s x y true).1, (start_fields b s x y true).2.1⟩
  unfold Board.click at h
  dsimp only at h
  split at h
  · simp at h
  · rename_i b2 heq
    rw [Option.some.injEq] at h
    have hf := bfsLoop_fields _ _ _ _ _ _ heq
    rw [← h]
    exact ⟨hf.1.trans hstart.1, hf.2.1.trans hstart.2⟩
  · rename_i b2 heq
    rw [Option.some.injEq] at h
    have hf := bfsLoop_fields _ _ _ _ _ _ heq
    split at h
    · rw [← h]
      exact ⟨hf.1.trans hstart.1, hf.2.1.trans hstart.2⟩
    · rw [← h]
      exact ⟨hf.1.trans hstart.1, hf.2.1.trans hstart.2⟩

/-- The seed queue built by `Board::click` only holds in-bounds positions. -/
theorem q1_bounds (bst : Board) (x y : Nat) (hx : x < bst.rows)
    (hy : y < bst.cols) :
    ∀ p ∈ (if (cellAt bst.board x y).state = BoardCellState.Blank then
        (if (cellAt bst.board x y).state = BoardCellState.Discovered ∧
            countFlaggedNbrs bst.board bst.rows bst.cols x y =
              (cellAt bst.board x y).value then
          seedBlanks bst.board bst.rows bst.cols x y
        else []) ++ [(x, y)]
      else
        (if (cellAt bst.board x y).state = BoardCellState.Discovered ∧
            countFlaggedNbrs bst.board bst.rows bst.cols x y =
              (cellAt bst.board x y).value then
          seedBlanks bst.board bst.rows bst.cols x y
        else [])),
      p.1 < bst.rows ∧ p.2 < bst.cols := by
  intro p hp
  by_cases hb : (cellAt bst.board x y).state = BoardCellState.Blank
  · rw [if_pos hb] at hp
    rcases List.mem_append.1 hp with h1 | h1
    · by_cases hc : (cellAt bst.board x y).state = BoardCellState.Discovered ∧
          countFlaggedNbrs bst.board bst.rows bst.cols x y =
            (cellAt bst.board x y).value
      · rw [if_pos hc] at h1
        rcases seedAux bst.board bst.rows bst.cols x y nbrOffsets [] p h1 with
          h2 | h2
        · simp at h2
        · exact h2
      · rw [if_neg hc] at h1
        simp at h1
    · have h2 : p = (x, y) := by simpa using h1
      rw [h2]
      exact ⟨hx, hy⟩
  · rw [if_neg hb] at hp
    by_cases hc : (cellAt bst.board x y).state = BoardCellState.Discovered ∧
        countFlaggedNbrs bst.board bst.rows bst.cols x y =
          (cellAt bst.board x y).value
    · rw [if_pos hc] at hp
      rcases seedAux bst.board bst.rows bst.cols x y nbrOffsets [] p hp with
        h2 | h2
      · simp at h2
      · exact h2
    · rw [if_neg hc] at hp
      simp at hp

/-- `Board::click` preserves the invariant. -/
theorem click_inv (b : Board) (s : List Nat) (x y : Nat) (b' : Board)
    (hx : x < b.rows) (hy : y < b.cols)
    (h : Board.click s x y b = some b') (hinv : Inv b) : Inv b' := by
  have hinvS : Inv (if b.started = true then b else Board.start b s x y true) := by
    by_cases hb : b.started = true
    · rw [if_pos hb]; exact hinv
    · rw [if_neg hb]; exact start_inv b s x y true hinv
  have hdim : (if b.started = true then b else Board.start b s x y true).rows
      = b.rows ∧
      (if b.started = true then b else Board.start b s x y true).cols = b.cols := by
    by_cases hb : b.started = true
    · rw [if_pos hb]; exact ⟨rfl, rfl⟩
    · rw [if_neg hb]
      exact ⟨(start_fields b s x y true).1, (start_fields b s x y true).2.1⟩
  have hq := q1_bounds (if b.started = true then b else Board.start b s x y true)
    x y (by rw [hdim.1]; exact hx) (by rw [hdim.2]; exact hy)
  unfold Board.click at h
  dsimp only at h
  split at h
  · simp at h
  · rename_i b2 heq
    rw [Option.some.injEq] at h
    rw [← h]
    exact bfsLoop_inv _ _ _ _ _ _ heq hq hinvS
  · rename_i b2 heq
    rw [Option.some.injEq] at h
    have hi2 : Inv b2 := bfsLoop_inv _ _ _ _ _ _ heq hq hinvS
    split at h
    · rw [← h]
      refine ⟨hi2.1, ?_⟩
      intro hip
      simp at hip
    · rw [← h]
      exact hi2

/-- `Board::flag` preserves the invariant. -/
theorem flag_inv (b : Board) (s : List Nat) (x y : Nat) (b' : Board)
    (hx : x < b.rows) (hy : y < b.cols)
    (h : Board.flag s x y b = some b') (hinv : Inv b) : Inv b' := by
  unfold Board.flag at h
  dsimp only at h
  split at h
  · simp at h
  · rename_i b1 heq
    rw [Option.some.injEq] at h
    have hb1 : Inv b1 ∧ b1.rows = b.rows ∧ b1.cols = b.cols := by
      split at heq
      · have hcf := click_fields b s x y b1 heq
        exact ⟨click_inv b s x y b1 hx hy heq hinv, hcf.1, hcf.2⟩
      · rw [Option.some.injEq] at heq
        rw [← heq]
        exact ⟨hinv, rfl, rfl⟩
    have hb2 : Inv (if b1.started = true then b1 else Board.start b1 s x y false) ∧
        (if b1.started = true then b1 else Board.start b1 s x y false).rows = b.rows ∧
        (if b1.started = true then b1 else Board.start b1 s x y false).cols = b.cols ∧
        (if b1.started = true then b1 else Board.start b1 s x y false).game_state =
          b1.game_state := by
      by_cases hs1 : b1.started = true
      · rw [if_pos hs1]; exact ⟨hb1.1, hb1.2.1, hb1.2.2, rfl⟩
      · rw [if_neg hs1]
        exact ⟨start_inv b1 s x y false hb1.1,
          (start_fields b1 s x y false).1.trans hb1.2.1,
          (start_fields b1 s x y false).2.1.trans hb1.2.2,
          (start_fields b1 s x y false).2.2.2.1⟩
    obtain ⟨hinv2, hr2, hc2, hg2⟩ := hb2
    obtain ⟨hgrid2, hflag2⟩ := hinv2
    rw [← h]
    have hxl : x < (if b1.started = true then b1 else
        Board.start b1 s x y false).board.length := by
      rw [hgrid2.1, hr2]; exact hx
    have hyl : y < ((if b1.started = true then b1 else
        Board.start b1 s x y false).board.getD x []).length := by
      rw [hgrid2.2.1 _ (getD_mem _ _ _ hxl), hc2]; exact hy
    have htag := tag_cellAt_le (if b1.started = true then b1 else
        Board.start b1 s x y false).board hgrid2.2.2 x y
    have hcnt := countFlagged_setCell (if b1.started = true then b1 else
        Board.start b1 s x y false).board x y
      ((cellAt (if b1.started = true then b1 else
        Board.start b1 s x y false).board x y).flag).1 hxl hyl
    have hdelta := flag_delta_bit (cellAt (if b1.started = true then b1 else
        Board.start b1 s x y false).board x y) htag
    refine ⟨setCell_GridOK _ _ _ _ _ _ hgrid2 (flag_tag _ htag), ?_⟩
    intro hip
    have hflageq := hflag2 hip
    dsimp only
    unfold wrap16 at hflageq ⊢
    omega

/-- `Board::update` preserves the invariant. -/
theorem update_inv (b : Board) (h : Inv b) : Inv (Board.update b) := by
  unfold Board.update
  split
  · rename_i hterm
    obtain ⟨⟨hlen, hrows, htags⟩, _⟩ := h
    refine ⟨⟨?_, ?_, ?_⟩, ?_⟩
    · rw [List.length_map]; exact hlen
    · intro r hr
      rcases List.mem_map.1 hr with ⟨r0, hr0, hrfl⟩
      rw [← hrfl, List.length_map]
      exact hrows r0 hr0
    · intro r hr cc hcc
      rcases List.mem_map.1 hr with ⟨r0, hr0, hrfl⟩
      rw [← hrfl] at hcc
      rcases List.mem_map.1 hcc with ⟨c0, hc0, hcrfl⟩
      rw [← hcrfl]
      exact updateCell_tag _ _ (htags r0 hr0 c0 hc0)
    · intro hip
      exact absurd hip hterm
  · exact h

/-- `Board::new` satisfies the invariant. -/
theorem new_inv (rows cols mines : Nat) : Inv (Board.new rows cols mines) := by
  refine ⟨⟨?_, ?_, ?_⟩, ?_⟩
  · simp [Board.new]
  · intro r hr
    simp only [Board.new, List.mem_map] at hr
    obtain ⟨i, hi, hrfl⟩ := hr
    rw [← hrfl]
    simp [Board.new]
  · intro r hr cc hcc
    simp only [Board.new, List.mem_map] at hr
    obtain ⟨i, hi, hrfl⟩ := hr
    rw [← hrfl] at hcc
    simp only [List.mem_map] at hcc
    obtain ⟨j, hj, hcrfl⟩ := hcc
    rw [← hcrfl]
    decide
  · intro hip
    have hc : countFlagged (Board.new rows cols mines).board = 0 := by
      simp [Board.new, countFlagged, countRow, flagBit, BoardCell.new,
        List.map_map, Function.comp]
    show (0 : Int) = wrap16 (countFlagged (Board.new rows cols mines).board : Int)
    rw [hc]
    decide

/-- Every reachable board satisfies the invariant. -/
theorem reachable_inv (b : Board) (h : Reachable b) : Inv b := by
  induction h with
  | new rows cols mines => exact new_inv rows cols mines
  | click b s x y b' hr hx hy hs hc ih => exact click_inv b s x y b' hx hy hc ih
  | flag b s x y b' hr hx hy hs hc ih => exact flag_inv b s x y b' hx hy hc ih
  | update b hr ih => exact update_inv b ih

/-! #### The wrap counterexample: 32768 flags on a 1×32768 board

Flagging every cell of a mine-free 1×32768 board performs 32768 `i16` `+=1`
updates: the counter wraps to −32768 while 32768 cells are Flagged, so the
unwrapped claim fails on a reachable InProgress board. -/

/-- The row after flagging its first k cells: k Flagged bytes `⟨32⟩`
followed by Blank bytes `⟨16⟩`. -/
def rowAfter (k : Nat) : List BoardCell :=
  List.replicate k ⟨32⟩ ++ List.replicate (32768 - k) ⟨16⟩

/-- The board reached after flagging cells (0,0)..(0,k-1) of
`Board.new 1 32768 0`. -/
def boardAfter (k : Nat) : Board :=
  { board := [rowAfter k], rows := 1, cols := 32768, mines := 0,
    game_state := GameState.InProgress, started := true,
    clicked_cells := 0, flagged_cells := wrap16 (k : Nat) }

/-- Reading just past a replicate prefix. -/
theorem getD_replicate_append {α : Type} (k : Nat) (a b : α) (t : List α)
    (d : α) : (List.replicate k a ++ b :: t).getD k d = b := by
  induction k with
  | zero => rfl
  | succ m ih =>
    simp only [List.replicate_succ, List.cons_append, List.getD_cons_succ]
    exact ih

/-- Writing just past a replicate prefix. -/
theorem set_replicate_append {α : Type} (k : Nat) (a b c : α) (t : List α) :
    (List.replicate k a ++ b :: t).set k c = List.replicate k a ++ c :: t := by
  induction k with
  | zero => rfl
  | succ m ih =>
    simp only [List.replicate_succ, List.cons_append, List.set_cons_succ]
    rw [ih]

/-- Absorbing one more copy into a replicate prefix. -/
theorem replicate_append_cons {α : Type} (k : Nat) (a : α) (t : List α) :
    List.replicate k a ++ a :: t = List.replicate (k + 1) a ++ t := by
  induction k with
  | zero => rfl
  | succ m ih =>
    simp only [List.replicate_succ, List.cons_append]
    rw [ih, List.replicate_succ, List.cons_append]

/-- Splitting the first Blank cell out of the suffix, while one remains. -/
theorem rowAfter_decomp (k : Nat) (h : k < 32768) :
    rowAfter k = List.replicate k (⟨32⟩ : BoardCell) ++ (⟨16⟩ : BoardCell) ::
      List.replicate (32768 - (k + 1)) (⟨16⟩ : BoardCell) := by
  unfold rowAfter
  congr 1
  rw [show 32768 - k = (32768 - (k + 1)) + 1 from by omega]
  rw [List.replicate_succ]

/-- `Board::start` with an empty sample only sets the started flag. -/
theorem start_empty (b : Board) (x y : Nat) (f : Bool) :
    b.start [] x y f = { b with started := true } := rfl

/-- One flag call on a Blank `⟨16⟩` cell of a started board: the cell turns
Flagged and the counter takes one wrapped increment. -/
theorem flag_blank_step (b : Board) (x y : Nat) (hst : b.started = true)
    (hcell : cellAt b.board x y = ⟨16⟩) :
    Board.flag [] x y b =
      some ({ b with board := setCell b.board x y ⟨32⟩,
                     flagged_cells := wrap16 (b.flagged_cells + 1) }) := by
  unfold Board.flag
  dsimp only
  rw [hcell, if_neg (show ¬((⟨16⟩ : BoardCell).state = BoardCellState.Discovered)
    from by decide)]
  dsimp only
  rw [if_pos hst, hcell,
    show ((⟨16⟩ : BoardCell).flag) = ((⟨32⟩ : BoardCell), (1 : Int)) from by decide]

/-- The same step on an unstarted board: activation with the empty sample
places nothing and only sets the started flag. -/
theorem flag_blank_step_unstarted (b : Board) (x y : Nat)
    (hst : b.started = false) (hcell : cellAt b.board x y = ⟨16⟩) :
    Board.flag [] x y b =
      some ({ b with started := true,
                     board := setCell b.board x y ⟨32⟩,
                     flagged_cells := wrap16 (b.flagged_cells + 1) }) := by
  unfold Board.flag
  dsimp only
  rw [hcell, if_neg (show ¬((⟨16⟩ : BoardCell).state = BoardCellState.Discovered)
    from by decide)]
  dsimp only
  rw [if_neg (show ¬(b.started = true) from by simp [hst])]
  rw [start_empty]
  have hcell2 : cellAt ({ b with started := true }).board x y = ⟨16⟩ := hcell
  rw [hcell2,
    show ((⟨16⟩ : BoardCell).flag) = ((⟨32⟩ : BoardCell), (1 : Int)) from by decide]

/-- The fresh 1×32768 grid is one all-Blank row. -/
theorem new_board_eq :
    (Board.new 1 32768 0).board = [List.replicate 32768 (⟨16⟩ : BoardCell)] := by
  unfold Board.new
  dsimp only
  rw [show List.range 1 = [0] from rfl]
  simp only [List.map_cons, List.map_nil]
  rw [show (List.range 32768).map (fun _ => BoardCell.new) =
    List.replicate (List.range 32768).length BoardCell.new from
    List.map_const' _ _]
  rw [List.length_range]
  rfl

/-- The first flag of the trace, from the fresh board. -/
theorem flag_new_step :
    Board.flag [] 0 0 (Board.new 1 32768 0) = some (boardAfter 1) := by
  have hcell : cellAt (Board.new 1 32768 0).board 0 0 = ⟨16⟩ := by
    rw [new_board_eq]
    unfold cellAt
    rw [List.getD_cons_zero,
      show (32768 : Nat) = 32767 + 1 from by norm_num,
      List.replicate_succ, List.getD_cons_zero]
  rw [flag_blank_step_unstarted (Board.new 1 32768 0) 0 0 rfl hcell,
    Option.some.injEq]
  have hb : setCell (Board.new 1 32768 0).board 0 0 (⟨32⟩ : BoardCell) =
      [rowAfter 1] := by
    rw [new_board_eq]
    unfold setCell
    rw [List.getD_cons_zero,
      show (32768 : Nat) = 32767 + 1 from by norm_num,
      List.replicate_succ, List.set_cons_zero, List.set_cons_zero]
    rfl
  rw [hb]
  have hf : wrap16 ((Board.new 1 32768 0).flagged_cells + 1) =
      wrap16 ((1 : Nat) : Int) := by
    show wrap16 ((0 : Int) + 1) = wrap16 ((1 : Nat) : Int)
    norm_num
  rw [hf]
  rfl

/-- Flag number k+1 of the trace. -/
theorem flag_boardAfter (k : Nat) (h : k < 32768) :
    Board.flag [] 0 k (boardAfter k) = some (boardAfter (k + 1)) := by
  have hcell : cellAt (boardAfter k).board 0 k = ⟨16⟩ := by
    show cellAt [rowAfter k] 0 k = ⟨16⟩
    unfold cellAt
    rw [List.getD_cons_zero, rowAfter_decomp k h]
    exact getD_replicate_append k (⟨32⟩ : BoardCell) ⟨16⟩ _ ⟨0⟩
  rw [flag_blank_step (boardAfter k) 0 k rfl hcell, Option.some.injEq]
  have hb : setCell (boardAfter k).board 0 k (⟨32⟩ : BoardCell) =
      [rowAfter (k + 1)] := by
    show setCell [rowAfter k] 0 k ⟨32⟩ = [rowAfter (k + 1)]
    unfold setCell
    rw [List.getD_cons_zero, rowAfter_decomp k h, set_replicate_append,
      replicate_append_cons, List.set_cons_zero]
    rfl
  have hf : wrap16 ((boardAfter k).flagged_cells + 1) =
      wrap16 ((k + 1 : Nat) : Int) := by
    show wrap16 (wrap16 ((k : Nat) : Int) + 1) = wrap16 ((k + 1 : Nat) : Int)
    unfold wrap16
    push_cast
    omega
  rw [hb, hf]
  rfl

/-- Every stage of the trace is reachable. -/
theorem reachable_boardAfter : ∀ k, 1 ≤ k → k ≤ 32768 →
    Reachable (boardAfter k) := by
  intro k
  induction k with
  | zero => intro h1 _; omega
  | succ m ih =>
    intro _ h2
    by_cases hm : m = 0
    · rw [hm]
      exact Reachable.flag (Board.new 1 32768 0) [] 0 0 (boardAfter 1)
        (Reachable.new 1 32768 0) (show (0 : Nat) < 1 by norm_num)
        (show (0 : Nat) < 32768 by norm_num) (by decide) flag_new_step
    · have h1m : 1 ≤ m := by omega
      have hlt : m < 32768 := by omega
      exact Reachable.flag (boardAfter m) [] 0 m (boardAfter (m + 1))
        (ih h1m (by omega)) (show (0 : Nat) < 1 by norm_num) hlt
        (Or.inl rfl) (flag_boardAfter m hlt)

/-- The final board has all 32768 cells Flagged. -/
theorem countFlagged_final : countFlagged (boardAfter 32768).board = 32768 := by
  show countFlagged [rowAfter 32768] = 32768
  unfold rowAfter
  rw [Nat.sub_self, List.replicate_zero, List.append_nil]
  unfold countFlagged countRow
  simp only [List.map_cons, List.map_nil, List.sum_cons, List.sum_nil,
    List.map_replicate, List.sum_replicate]
  rw [show flagBit ⟨32⟩ = 1 from by decide]
  simp

/-- C10, counterexample.  The reachable InProgress board obtained by
flagging all 32768 cells of a mine-free 1×32768 board has 32768 Flagged
cells, yet its `i16` flagged counter has wrapped to −32768: the counter
does not equal the number of Flagged cells, and it IS negative while
InProgress — refuting both parts of the claim. -/
theorem flagged_wrap_cx :
    Reachable (boardAfter 32768) ∧
    (boardAfter 32768).game_state = GameState.InProgress ∧
    countFlagged (boardAfter 32768).board = 32768 ∧
    (boardAfter 32768).flagged_cells = -32768 ∧
    (boardAfter 32768).flagged_cells ≠
      (countFlagged (boardAfter 32768).board : Int) ∧
    (boardAfter 32768).flagged_cells < 0 := by
  refine ⟨reachable_boardAfter 32768 (by norm_num) (le_refl 32768), rfl,
    countFlagged_final, ?_, ?_, ?_⟩
  · show wrap16 ((32768 : Nat) : Int) = -32768
    decide
  · rw [countFlagged_final]
    show wrap16 ((32768 : Nat) : Int) ≠ ((32768 : Nat) : Int)
    decide
  · show wrap16 ((32768 : Nat) : Int) < 0
    decide

/-- C10, amended.  On every reachable board whose game state is InProgress,
the `i16` flagged-cell counter equals the two's-complement wrap of the
number of grid cells currently in the Flagged state; whenever fewer than
32768 cells are Flagged — in particular on every board with at most 32767
cells — it equals that number exactly, and is then never negative.  The
proof carries the invariant through `new`, `start`, `click`, `flag` and
`update`. -/
theorem flagged_counter_invariant (b : Board) (h : Reachable b)
    (hs : b.game_state = GameState.InProgress) :
    b.flagged_cells = wrap16 (countFlagged b.board) ∧
    (countFlagged b.board < 32768 →
      b.flagged_cells = (countFlagged b.board : Int) ∧ 0 ≤ b.flagged_cells) := by
  have hi := (reachable_inv b h).2 hs
  refine ⟨hi, fun hlt => ?_⟩
  have hlt2 : (countFlagged b.board : Int) < 32768 := by exact_mod_cast hlt
  have hw : wrap16 (countFlagged b.board) = (countFlagged b.board : Int) := by
    unfold wrap16
    omega
  rw [hi, hw]
  exact ⟨rfl, Int.ofNat_nonneg _⟩

/-- C10 witness: the invariant evaluated on a freshly constructed board. -/
theorem flagged_counter_invariant_witness :
    (Board.new 1 1 0).flagged_cells =
      wrap16 (countFlagged (Board.new 1 1 0).board) ∧
    (Board.new 1 1 0).flagged_cells =
      (countFlagged (Board.new 1 1 0).board : Int) ∧
    0 ≤ (Board.new 1 1 0).flagged_cells :=
  ⟨(flagged_counter_invariant (Board.new 1 1 0) (Reachable.new 1 1 0)
      (by decide)).1,
    (flagged_counter_invariant (Board.new 1 1 0) (Reachable.new 1 1 0)
      (by decide)).2 (by decide)⟩

end Minesweeper
